import Mathlib

/-!
Shallow embedding of `src/index.js` (the `makeran` watcher).  Text is modelled
as `List Char` (one entry per UTF-16 code unit of the JS string; all characters
appearing in the claims are in the BMP, where the two notions agree).  The
sha512 hex digest used by `getHash` is out of scope per the specification
("any collision-resistant hash suffices"), so the digest step is abstracted
away: the modelled `getHash` returns the canonical stripped text itself, and
digest equality corresponds to equality of these canonical texts.
-/

namespace Makeran

/-- Characters of the opening marker, the JS `prefix` string. -/
def markerStart : List Char := "\n/** @autorun-".toList

/-- Characters of the closing marker, the JS `suffix` string. -/
def markerEnd : List Char := " */\n".toList

/-- Test whether `pat` occurs in `s` starting at position `j`. -/
def matchAt (s pat : List Char) (j : Nat) : Bool := pat.isPrefixOf (s.drop j)

/-- Scan positions `j, j+1, ...` (at most `n` of them) for the first occurrence of `pat`. -/
def indexOfGo (s pat : List Char) : Nat → Nat → Option Nat
  | _, 0 => none
  | j, n+1 => if matchAt s pat j then some j else indexOfGo s pat (j+1) n

/-- Model of JS `s.indexOf(pat, i)`, returning `none` instead of `-1`. -/
def indexOfFrom (s pat : List Char) (i : Nat) : Option Nat :=
  indexOfGo s pat i (s.length + 1 - i)

/-- Whether `pat` occurs anywhere in `s`. -/
def hasSub (s pat : List Char) : Bool := (indexOfFrom s pat 0).isSome

/-- Model of JS `s.slice(a, b)` for `0 ≤ a`, `0 ≤ b`. -/
def jsSlice (s : List Char) (a b : Nat) : List Char := (s.take b).drop a

/-- One parsed metadata range: `{key, value, start, end}` from `getCommentValueLookup`
(`stop` stands for the JS field `end`, a reserved word in Lean). -/
structure MRange where
  key : List Char
  value : List Char
  start : Nat
  stop : Nat
deriving DecidableEq

/-- The scanning `while` loop of `getCommentValueLookup`, with explicit fuel.
Each iteration consumes at least four characters, so `contents.length + 1`
fuel (as supplied by `parseRanges`) is always enough.  When the key-delimiting
space is absent JS computes `keyEnd = -1` and slices with negative indices;
that (unreachable) branch is translated literally. -/
def parseRangesGo (contents : List Char) : Nat → Nat → List MRange
  | _, 0 => []
  | index, fuel+1 =>
    match indexOfFrom contents markerStart index with
    | none => []
    | some i =>
      match indexOfFrom contents markerEnd i with
      | none => []
      | some endIndex =>
        match indexOfFrom contents [' '] (i + markerStart.length) with
        | some keyEnd =>
          { key := jsSlice contents (i + markerStart.length) keyEnd,
            value := jsSlice contents (keyEnd + 1) endIndex,
            start := i, stop := endIndex + markerEnd.length } ::
          parseRangesGo contents (endIndex + markerEnd.length) fuel
        | none =>
          { key := jsSlice contents (i + markerStart.length) (contents.length - 1),
            value := jsSlice contents 0 endIndex,
            start := i, stop := endIndex + markerEnd.length } ::
          parseRangesGo contents (endIndex + markerEnd.length) fuel

/-- All metadata ranges of a content string, in file order. -/
def parseRanges (contents : List Char) : List MRange :=
  parseRangesGo contents 0 (contents.length + 1)

/-- Insertion-ordered association list modelling the JS value object
(string keys only; the two symbol-keyed fields live in `LookupState`). -/
abbrev Lookup := List (List Char × List Char)

/-- Model of JS property assignment `m[k] = v`: update in place, else append. -/
def setKey : Lookup → List Char → List Char → Lookup
  | [], k, v => [(k, v)]
  | (k', v') :: rest, k, v =>
    if k' = k then (k', v) :: rest else (k', v') :: setKey rest k v

/-- Model of JS property read `m[k]` (`none` for `undefined`). -/
def lookupGet : Lookup → List Char → Option (List Char)
  | [], _ => none
  | (k', v') :: rest, k => if k' = k then some v' else lookupGet rest k

/-- Model of JS `delete m[k]`. -/
def removeKey : Lookup → List Char → Lookup
  | [], _ => []
  | (k', v') :: rest, k =>
    if k' = k then removeKey rest k else (k', v') :: removeKey rest k

/-- The value map built up by the assignments `outputValues[key] = value`
performed while scanning, one per range in order (last occurrence wins). -/
def valuesOfRanges (rs : List MRange) : Lookup :=
  rs.foldl (fun m r => setKey m r.key r.value) []

/-- The parsed view of a file: the visible key/value map plus the two
symbol-keyed fields (`ValueRangesSymbol`, `OriginalContentsSymbol`). -/
structure LookupState where
  values : Lookup
  ranges : List MRange
  original : List Char
deriving DecidableEq

/-- Model of `getCommentValueLookup(contents)`. -/
def getCommentValueLookup (contents : List Char) : LookupState :=
  { values := valuesOfRanges (parseRanges contents),
    ranges := parseRanges contents,
    original := contents }

/-- Model of `value.replace(/\*\//g, "*\\/")`: scan left to right; at each
`*/` occurrence emit `*\/` and skip both characters (regex global
replacement is leftmost and non-overlapping), otherwise copy one character. -/
def escapeValue : List Char → List Char
  | [] => []
  | [c] => [c]
  | c :: c2 :: rest =>
    if c = '*' ∧ c2 = '/'
    then c :: '\\' :: c2 :: escapeValue rest
    else c :: escapeValue (c2 :: rest)

/-- Model of the inner `formatValue` of `getContentsFromLookup`. -/
def formatValue (key value : List Char) : List Char :=
  markerStart ++ key ++ ' ' :: escapeValue value ++ markerEnd

/-- A well-formed block whose stored value text is `w` verbatim. -/
def mkBlock (k w : List Char) : List Char :=
  markerStart ++ k ++ ' ' :: w ++ markerEnd

/-- Model of `contents.slice(0, a) + repl + contents.slice(b)`. -/
def spliceRange (c : List Char) (a b : Nat) (repl : List Char) : List Char :=
  c.take a ++ repl ++ c.drop b

/-- The reverse `for` loop of `getContentsFromLookup`: walk ranges from the
last to the first, keeping/replacing/deleting spans, and collect `foundKeys`.
The head of the list is processed last, so the recursion first serializes the
tail (the later, higher-offset ranges), matching the JS iteration order. -/
def serializeRevLoop (values : Lookup) : List MRange → List Char → List Char × List (List Char)
  | [], c => (c, [])
  | r :: rest, c =>
    let p := serializeRevLoop values rest c
    match lookupGet values r.key with
    | some v =>
      (if v = r.value then p.1 else spliceRange p.1 r.start r.stop (formatValue r.key v),
       r.key :: p.2)
    | none => (spliceRange p.1 r.start r.stop [], p.2)

/-- The designated bulk-output key. -/
def outputKey : List Char := "output".toList

/-- The stored-fingerprint key. -/
def lastRunHashKey : List Char := "lastRunHash".toList

/-- The cancellation sentinel key. -/
def stopKey : List Char := "stop".toList

/-- The second `for key in valueLookup` loop of `getContentsFromLookup`:
every key not marked found gets a fresh block, appended at the end when the
value is longer than 60 characters or the key is `output`, else prepended.
JS `for..in` is modelled as insertion order. -/
def addNewKeys (found : List (List Char)) : Lookup → List Char → List Char
  | [], c => c
  | (k, v) :: rest, c =>
    addNewKeys found rest
      (if k ∈ found then c
       else if 60 < v.length ∨ k = outputKey then c ++ formatValue k v
       else formatValue k v ++ c)

/-- Model of `getContentsFromLookup(valueLookup)`. -/
def getContentsFromLookup (st : LookupState) : List Char :=
  let p := serializeRevLoop st.values st.ranges st.original
  addNewKeys p.2 st.values p.1

/-- Model of the inner `getHash` of `runOnFileNameInner`: parse, delete every
key from the value map, re-serialize.  The final sha512 hex digest is
abstracted to the canonical text itself (see the file header). -/
def getHash (contents : List Char) : List Char :=
  getContentsFromLookup { getCommentValueLookup contents with values := [] }

/-- Outcome of the run-attempt gate at the top of `runOnFileNameInner`. -/
inductive GateOutcome where
  | noFile
  | skipUnchanged
  | proceed (outputValues : LookupState) (hash : List Char)
deriving DecidableEq

/-- The gate of `runOnFileNameInner`: a failed read abandons silently, an
up-to-date `lastRunHash` abandons before any process is spawned. -/
def runGate (file : Option (List Char)) : GateOutcome :=
  match file with
  | none => .noFile
  | some contents =>
    if lookupGet (getCommentValueLookup contents).values lastRunHashKey = some (getHash contents)
    then .skipUnchanged
    else .proceed (getCommentValueLookup contents) (getHash contents)

/-- Externally visible effects of a run attempt. -/
inductive Fx where
  | spawnChild
  | killChild
  | fileWrite (c : List Char)
deriving DecidableEq

/-- Effects of `runOnFileNameInner`: the child is forked (and the given
run-phase effects happen) only when the gate proceeds. -/
def gateEffects (file : Option (List Char)) (runFx : List Fx) : List Fx :=
  match runGate file with
  | .proceed _ _ => Fx.spawnChild :: runFx
  | _ => []

/-- The non-cancelling update of `writeContents`: set `output` and
`lastRunHash` on the run's base values and drop any stray `stop` key. -/
def updatedState (outputValues : LookupState) (output hash : List Char) : LookupState :=
  { outputValues with
    values := removeKey (setKey (setKey outputValues.values outputKey output)
      lastRunHashKey hash) stopKey }

/-- The cancelling update of `writeContents`: adopt the freshly read
metadata wholesale and drop its `stop` key. -/
def adoptedState (testCur : LookupState) : LookupState :=
  { testCur with values := removeKey testCur.values stopKey }

/-- Result of one `writeContents` call. -/
inductive WCResult where
  | skipped
  | stopped (ov : LookupState) (written : List Char)
  | committed (ov : LookupState) (written : List Char)
  | invariantError (ov : LookupState) (serialized : List Char)
deriving DecidableEq

/-- Model of the checkpoint procedure `writeContents`.  `disk` is the fresh
re-read of the file (`none` when the read fails, leaving the test lookup
empty as in the JS `catch`).  A `stop` key kills the child, adopts the
on-disk metadata and marks the job done; otherwise the pending output/hash
update is serialized, guarded by the fingerprint-stability assertion, whose
failure throws before the file write. -/
def writeContents (done : Bool) (disk : Option (List Char)) (outputValues : LookupState)
    (output hash : List Char) : WCResult :=
  if done then .skipped else
  let testCur : LookupState :=
    match disk with
    | some d => getCommentValueLookup d
    | none => { values := [], ranges := [], original := [] }
  if (lookupGet testCur.values stopKey).isSome then
    .stopped (adoptedState testCur) (getContentsFromLookup (adoptedState testCur))
  else
    let ov := updatedState outputValues output hash
    if getHash (getContentsFromLookup ov) = hash
    then .committed ov (getContentsFromLookup ov)
    else .invariantError ov (getContentsFromLookup ov)

/-- Effects of one `writeContents` call: the kill happens only on the stop
path, the file write happens unless the invariant assertion threw first. -/
def wcEffects : WCResult → List Fx
  | .skipped => []
  | .stopped _ w => [Fx.killChild, Fx.fileWrite w]
  | .committed _ w => [Fx.fileWrite w]
  | .invariantError _ _ => []

/-- The `done` flag after a `writeContents` call (set only on the stop path;
the write loop and the final checkpoint test it before writing again). -/
def wcDone (prevDone : Bool) : WCResult → Bool
  | .stopped _ _ => true
  | _ => prevDone

/-- Per-filename coordination state: membership in `filesPending`,
membership in `filesPendingTrigger`, and the number of run attempts
(`runOnFileNameInner` invocations) started so far. -/
structure PendingState where
  running : Bool
  retrigger : Bool
  runs : Nat
deriving DecidableEq

/-- Events at the `runOnFileName` boundary: an external trigger, or the
completion (normal or erroring) of the in-flight `runOnFileNameInner`. -/
inductive CoordEvent where
  | trigger
  | finish
deriving DecidableEq

/-- Model of `runOnFileName`'s debounce logic.  A trigger while running only
records a retrigger; otherwise it starts a run.  Completion runs the JS
`finally` block: clear `filesPending`, and if a retrigger is recorded, clear
it and re-enter, which starts exactly one new run. -/
def coordStep (s : PendingState) : CoordEvent → PendingState
  | .trigger =>
    if s.running then { s with retrigger := true }
    else { s with running := true, runs := s.runs + 1 }
  | .finish =>
    if s.running then
      if s.retrigger then { running := true, retrigger := false, runs := s.runs + 1 }
      else { s with running := false }
    else s

/-- Fold a list of events through `coordStep`. -/
def coordRun (s : PendingState) (es : List CoordEvent) : PendingState :=
  es.foldl coordStep s

/-- The per-filename state map (`filesPending` / `filesPendingTrigger` are
keyed by filename); an event for one name touches only that name's state. -/
def filesStep (m : List Char → PendingState) (name : List Char) (e : CoordEvent) :
    List Char → PendingState :=
  fun n => if n = name then coordStep (m n) e else m n

/-- The three event sources `runOnFileNameInner` subscribes on. -/
inductive StreamId where
  | procStream
  | outStream
  | errStream
deriving DecidableEq

/-- Payload of a child-process event. -/
inductive Payload where
  | dataChunk (d : List Char)
  | exitCode (c : Option Int)
  | errObj (e : List Char)
deriving DecidableEq

/-- The diagnostic line appended on a non-zero exit code
(JS template `\nExit code non-0, was ${code}\n`; `none` prints `null`). -/
def exitTrailer (c : Option Int) : List Char :=
  "\nExit code non-0, was ".toList ++
    (match c with | some n => (toString n).toList | none => "null".toList) ++ "\n".toList

/-- The diagnostic line appended on a spawn-time error. -/
def errorTrailer (e : List Char) : List Char :=
  "\nEnding with error ".toList ++ e ++ "\n".toList

/-- One event-handler registration made by `runOnFileNameInner`. -/
structure Handler where
  stream : StreamId
  evName : List Char
  act : List Char → Payload → List Char

/-- The five registrations of `runOnFileNameInner`, verbatim: note that the
stderr handler is registered for an event named `"err"`. -/
def handlers : List Handler :=
  [ { stream := .procStream, evName := "error".toList,
      act := fun out p => match p with | .errObj e => out ++ errorTrailer e | _ => out },
    { stream := .procStream, evName := "exit".toList,
      act := fun out p =>
        match p with
        | .exitCode c => if c ≠ some 0 then out ++ exitTrailer c else out
        | _ => out },
    { stream := .outStream, evName := "end".toList, act := fun out _ => out },
    { stream := .outStream, evName := "data".toList,
      act := fun out p => match p with | .dataChunk d => out ++ d | _ => out },
    { stream := .errStream, evName := "err".toList,
      act := fun out p => match p with | .dataChunk d => out ++ d | _ => out } ]

/-- Deliver one emitted event to every matching registered handler. -/
def dispatchEvent (out : List Char) (s : StreamId) (evName : List Char) (p : Payload) :
    List Char :=
  handlers.foldl (fun o h => if h.stream = s ∧ h.evName = evName then h.act o p else o) out

/-- Accumulate the `output` buffer (initialised to `"\n"` by the code) over a
sequence of emitted events. -/
def runChildEvents (events : List (StreamId × List Char × Payload)) : List Char :=
  events.foldl (fun o e => dispatchEvent o e.1 e.2.1 e.2.2) "\n".toList

/-- The run's metadata assignment performed by `writeContents` seen abstractly:
values for the three metadata keys `lastRunHash`, `output`, `stop`. -/
def applyMeta (st : LookupState) (h o s : List Char) : LookupState :=
  { st with
    values := setKey (setKey (setKey st.values lastRunHashKey h) outputKey o) stopKey s }

/-! Basic lemmas about the lookup operations. -/

theorem lookupGet_removeKey_self (m : Lookup) (k : List Char) :
    lookupGet (removeKey m k) k = none := by
  induction m with
  | nil => rfl
  | cons p rest ih =>
    obtain ⟨k', v'⟩ := p
    by_cases h : k' = k
    · simpa [removeKey, h] using ih
    · simp [removeKey, lookupGet, h, ih]

theorem lookupGet_setKey (m : Lookup) (k v q : List Char) :
    lookupGet (setKey m k v) q = if k = q then some v else lookupGet m q := by
  induction m with
  | nil => by_cases h : k = q <;> simp [setKey, lookupGet, h]
  | cons p rest ih =>
    obtain ⟨k', v'⟩ := p
    by_cases h1 : k' = k
    · subst h1
      by_cases h2 : k' = q <;> simp [setKey, lookupGet, h2]
    · by_cases h2 : k' = q
      · have hkq : ¬ k = q := fun e => h1 (h2.trans e.symm)
        have hqk : ¬ q = k := fun e => hkq e.symm
        simp [setKey, lookupGet, h1, h2, hkq, hqk]
      · simp [setKey, lookupGet, h1, h2, ih]

theorem lookupGet_removeKey (m : Lookup) (k q : List Char) (h : q ≠ k) :
    lookupGet (removeKey m k) q = lookupGet m q := by
  induction m with
  | nil => rfl
  | cons p rest ih =>
    obtain ⟨k', v'⟩ := p
    by_cases h1 : k' = k
    · have h2 : ¬ k' = q := fun e => h (e.symm.trans h1)
      have h3 : ¬ k = q := fun e => h e.symm
      simp [removeKey, lookupGet, h1, h2, h3, ih]
    · by_cases h2 : k' = q
      · have hqk : ¬ q = k := h
        simp [removeKey, lookupGet, h1, h2, hqk, ih]
      · simp [removeKey, lookupGet, h1, h2, ih]

/-! Characterizations of the scanning primitives. -/

theorem isPrefixOf_iff (a b : List Char) : a.isPrefixOf b = true ↔ ∃ t, b = a ++ t := by
  induction a generalizing b with
  | nil =>
    simp only [List.isPrefixOf, List.nil_append, true_iff]
    exact ⟨b, rfl⟩
  | cons x xs ih =>
    cases b with
    | nil => simp [List.isPrefixOf]
    | cons y ys =>
      simp only [List.isPrefixOf, Bool.and_eq_true, beq_iff_eq, ih, List.cons_append]
      constructor
      · rintro ⟨hxy, t, ht⟩; exact ⟨t, by rw [hxy, ht]⟩
      · rintro ⟨t, ht⟩
        injection ht with h1 h2
        exact ⟨h1.symm, t, h2⟩

theorem matchAt_iff (s pat : List Char) (j : Nat) :
    matchAt s pat j = true ↔ ∃ t, s.drop j = pat ++ t := isPrefixOf_iff _ _

theorem matchAt_le_length (s pat : List Char) (j : Nat) (hpat : 1 ≤ pat.length)
    (h : matchAt s pat j = true) : j + pat.length ≤ s.length := by
  obtain ⟨t, ht⟩ := (matchAt_iff s pat j).1 h
  have h1 : s.length - j = pat.length + t.length := by
    have h2 := congrArg List.length ht
    simpa using h2
  omega

theorem indexOfGo_some (s pat : List Char) :
    ∀ (n j r : Nat), indexOfGo s pat j n = some r →
      j ≤ r ∧ r < j + n ∧ matchAt s pat r = true ∧
        ∀ q, j ≤ q → q < r → matchAt s pat q = false := by
  intro n
  induction n with
  | zero => intro j r h; exact absurd h (by simp [indexOfGo])
  | succ m ih =>
    intro j r h
    by_cases hm : matchAt s pat j = true
    · have hrj : r = j := by
        have := h
        simp only [indexOfGo, hm, if_true] at this
        exact (Option.some_inj.mp this).symm
      subst hrj
      exact ⟨le_refl _, by omega, hm,
        fun q h1 h2 => absurd (h1.trans_lt h2) (lt_irrefl _)⟩
    · have hmf : matchAt s pat j = false := by simpa using hm
      have h' : indexOfGo s pat (j+1) m = some r := by
        simpa [indexOfGo, hmf] using h
      obtain ⟨a, b, c, d⟩ := ih (j+1) r h'
      refine ⟨by omega, by omega, c, ?_⟩
      intro q h1 h2
      rcases Nat.eq_or_lt_of_le h1 with he | hl
      · rw [← he]; exact hmf
      · exact d q hl h2

theorem indexOfGo_eq_some (s pat : List Char) :
    ∀ (n j r : Nat), j ≤ r → r < j + n → matchAt s pat r = true →
      (∀ q, j ≤ q → q < r → matchAt s pat q = false) →
      indexOfGo s pat j n = some r := by
  intro n
  induction n with
  | zero => intro j r h1 h2 _ _; exact absurd h2 (by omega)
  | succ m ih =>
    intro j r h1 h2 h3 h4
    rcases Nat.eq_or_lt_of_le h1 with he | hl
    · subst he; simp [indexOfGo, h3]
    · have hj : matchAt s pat j = false := h4 j (le_refl _) hl
      simp only [indexOfGo, hj, Bool.false_eq_true, if_false]
      exact ih (j+1) r (by omega) (by omega) h3 (fun q a b => h4 q (by omega) b)

theorem indexOfGo_eq_none (s pat : List Char) :
    ∀ (n j : Nat), (∀ q, j ≤ q → q < j + n → matchAt s pat q = false) →
      indexOfGo s pat j n = none := by
  intro n
  induction n with
  | zero => intro j _; rfl
  | succ m ih =>
    intro j h
    have hj : matchAt s pat j = false := h j (le_refl _) (by omega)
    simp only [indexOfGo, hj, Bool.false_eq_true, if_false]
    exact ih (j+1) (fun q a b => h q (by omega) (by omega))

theorem indexOfFrom_some (s pat : List Char) (i r : Nat) (hpat : 1 ≤ pat.length)
    (h : indexOfFrom s pat i = some r) :
    i ≤ r ∧ matchAt s pat r = true ∧ r + pat.length ≤ s.length ∧
      ∀ q, i ≤ q → q < r → matchAt s pat q = false := by
  obtain ⟨a, _, c, d⟩ := indexOfGo_some s pat _ i r h
  exact ⟨a, c, matchAt_le_length s pat r hpat c, d⟩

theorem indexOfFrom_eq_some (s pat : List Char) (i r : Nat) (hpat : 1 ≤ pat.length)
    (h3 : matchAt s pat r = true) (h1 : i ≤ r)
    (h4 : ∀ q, i ≤ q → q < r → matchAt s pat q = false) :
    indexOfFrom s pat i = some r := by
  have hr : r + pat.length ≤ s.length := matchAt_le_length s pat r hpat h3
  exact indexOfGo_eq_some s pat _ i r h1 (by omega) h3 h4

theorem indexOfFrom_eq_none (s pat : List Char) (i : Nat)
    (h : ∀ q, i ≤ q → matchAt s pat q = false) : indexOfFrom s pat i = none :=
  indexOfGo_eq_none s pat _ i (fun q a _ => h q a)

theorem matchAt_append_shift (A B pat : List Char) (q : Nat) :
    matchAt (A ++ B) pat (A.length + q) = matchAt B pat q := by
  unfold matchAt
  rw [← List.drop_drop, List.drop_left]

/-! Geometry of parsed ranges: the scan produces ordered, in-bounds,
non-overlapping ranges, and the reverse serialization loop therefore
decomposes into the gap/replacement rendering `renderFrom`. -/

/-- Ordered in-bounds non-overlapping ranges starting at or after `pos`. -/
def rangesOK (len : Nat) : Nat → List MRange → Prop
  | _, [] => True
  | pos, r :: rest => pos ≤ r.start ∧ r.start ≤ r.stop ∧ r.stop ≤ len ∧ rangesOK len r.stop rest

theorem parseRangesGo_ok (contents : List Char) :
    ∀ (fuel index : Nat), rangesOK contents.length index (parseRangesGo contents index fuel) := by
  intro fuel
  induction fuel with
  | zero => intro index; trivial
  | succ m ih =>
    intro index
    cases h1 : indexOfFrom contents markerStart index with
    | none => simp [parseRangesGo, h1, rangesOK]
    | some i =>
      cases h2 : indexOfFrom contents markerEnd i with
      | none => simp [parseRangesGo, h1, h2, rangesOK]
      | some endIndex =>
        obtain ⟨hi1, _, hi3, _⟩ := indexOfFrom_some contents markerStart index i (by decide) h1
        obtain ⟨he1, _, he3, _⟩ := indexOfFrom_some contents markerEnd i endIndex (by decide) h2
        have hm : markerEnd.length = 4 := by decide
        cases h3 : indexOfFrom contents [' '] (i + markerStart.length) with
        | some keyEnd =>
          simp only [parseRangesGo, h1, h2, h3]
          exact ⟨hi1, by show i ≤ endIndex + markerEnd.length; omega, he3, ih _⟩
        | none =>
          simp only [parseRangesGo, h1, h2, h3]
          exact ⟨hi1, by show i ≤ endIndex + markerEnd.length; omega, he3, ih _⟩

theorem parseRanges_ok (contents : List Char) :
    rangesOK contents.length 0 (parseRanges contents) :=
  parseRangesGo_ok contents _ 0

/-- What the serialization loop leaves in place of one range: keep the
original span when the value is unchanged, re-format it when it changed,
delete it when the key is gone from the map. -/
def rangeRepl (values : Lookup) (o : List Char) (r : MRange) : List Char :=
  match lookupGet values r.key with
  | some v => if v = r.value then jsSlice o r.start r.stop else formatValue r.key v
  | none => []

/-- Left-to-right rendering of a serialization result: the untouched gap
before each range (`jsSlice o pos r.start`, bytes outside every range,
verbatim and in order), then that range's replacement, then the rest;
the final gap is everything after the last range. -/
def renderFrom (values : Lookup) (o : List Char) : List MRange → Nat → List Char
  | [], pos => o.drop pos
  | r :: rest, pos =>
    jsSlice o pos r.start ++ rangeRepl values o r ++ renderFrom values o rest r.stop

theorem take_prefix_join (o : List Char) (a b : Nat) (h : a ≤ b) :
    o.take a ++ jsSlice o a b = o.take b := by
  unfold jsSlice
  conv_rhs => rw [← List.take_append_drop a (o.take b)]
  rw [List.take_take, Nat.min_eq_left h]

theorem drop_append_eq (A B : List Char) (n : Nat) (h : A.length = n) :
    (A ++ B).drop n = B := by
  subst h; exact List.drop_left _ _

theorem serializeRevLoop_eq_renderFrom (values : Lookup) (o : List Char) :
    ∀ (rs : List MRange) (pos : Nat), rangesOK o.length pos rs →
      (serializeRevLoop values rs o).1 = o.take pos ++ renderFrom values o rs pos := by
  intro rs
  induction rs with
  | nil =>
    intro pos _
    simp [serializeRevLoop, renderFrom, List.take_append_drop]
  | cons r rest ih =>
    intro pos h
    obtain ⟨h1, h2, h3, h4⟩ := h
    have hc := ih r.stop h4
    have hlen : (o.take r.stop).length = r.stop := by
      rw [List.length_take]; omega
    have htake : (serializeRevLoop values rest o).1.take r.start = o.take r.start := by
      rw [hc, List.take_append_of_le_length (by omega),
        List.take_take, Nat.min_eq_left h2]
    have hdrop : (serializeRevLoop values rest o).1.drop r.stop =
        renderFrom values o rest r.stop := by
      rw [hc]; exact drop_append_eq _ _ _ hlen
    have hjoin : o.take pos ++ jsSlice o pos r.start = o.take r.start :=
      take_prefix_join o pos r.start h1
    have hrender : renderFrom values o (r :: rest) pos =
        jsSlice o pos r.start ++ rangeRepl values o r ++ renderFrom values o rest r.stop := rfl
    cases hk : lookupGet values r.key with
    | some v =>
      have hrepl : rangeRepl values o r =
          (if v = r.value then jsSlice o r.start r.stop else formatValue r.key v) := by
        unfold rangeRepl; rw [hk]
      by_cases hv : v = r.value
      · have hloop : (serializeRevLoop values (r :: rest) o).1 =
            (serializeRevLoop values rest o).1 := by
          simp [serializeRevLoop, hk, hv]
        rw [hloop, hc, hrender, hrepl, if_pos hv]
        simp only [← List.append_assoc]
        rw [hjoin, take_prefix_join o r.start r.stop h2]
      · have hloop : (serializeRevLoop values (r :: rest) o).1 =
            spliceRange (serializeRevLoop values rest o).1 r.start r.stop
              (formatValue r.key v) := by
          simp [serializeRevLoop, hk, hv]
        rw [hloop]
        unfold spliceRange
        rw [htake, hdrop, hrender, hrepl, if_neg hv]
        simp only [← List.append_assoc]
        rw [hjoin]
    | none =>
      have hloop : (serializeRevLoop values (r :: rest) o).1 =
          spliceRange (serializeRevLoop values rest o).1 r.start r.stop [] := by
        simp [serializeRevLoop, hk]
      have hrepl : rangeRepl values o r = [] := by unfold rangeRepl; rw [hk]
      rw [hloop]
      unfold spliceRange
      rw [htake, hdrop, hrender, hrepl]
      simp only [List.append_nil, List.nil_append, ← List.append_assoc]
      rw [hjoin]

/-! Facts about `foundKeys` and the parsed value map. -/

theorem serializeRevLoop_found_sub (values : Lookup) (c : List Char) :
    ∀ (rs : List MRange) (k : List Char), k ∈ (serializeRevLoop values rs c).2 →
      ∃ r ∈ rs, r.key = k := by
  intro rs
  induction rs with
  | nil => intro k h; exact absurd h (by simp [serializeRevLoop])
  | cons r rest ih =>
    intro k h
    simp only [serializeRevLoop] at h
    cases hk : lookupGet values r.key with
    | some v =>
      rw [hk] at h
      simp only [List.mem_cons] at h
      rcases h with h | h
      · exact ⟨r, List.mem_cons_self _ _, h.symm⟩
      · obtain ⟨r', hr', he⟩ := ih k h
        exact ⟨r', List.mem_cons_of_mem _ hr', he⟩
    | none =>
      rw [hk] at h
      obtain ⟨r', hr', he⟩ := ih k h
      exact ⟨r', List.mem_cons_of_mem _ hr', he⟩

theorem serializeRevLoop_found_mem (values : Lookup) (c : List Char) :
    ∀ (rs : List MRange) (r : MRange), r ∈ rs → (lookupGet values r.key).isSome = true →
      r.key ∈ (serializeRevLoop values rs c).2 := by
  intro rs
  induction rs with
  | nil => intro r h; exact absurd h (by simp)
  | cons r0 rest ih =>
    intro r h hs
    simp only [serializeRevLoop]
    rcases List.mem_cons.mp h with he | hm
    · subst he
      cases hk : lookupGet values r.key with
      | some v => simp
      | none => rw [hk] at hs; exact absurd hs (by simp)
    · have := ih r hm hs
      cases hk : lookupGet values r0.key with
      | some v => simpa using Or.inr this
      | none => simpa using this

theorem serializeRevLoop_congr (values values' : Lookup) (c : List Char) :
    ∀ (rs : List MRange), (∀ r ∈ rs, lookupGet values' r.key = lookupGet values r.key) →
      serializeRevLoop values' rs c = serializeRevLoop values rs c := by
  intro rs
  induction rs with
  | nil => intro _; rfl
  | cons r rest ih =>
    intro h
    have htail := ih (fun r' hr' => h r' (List.mem_cons_of_mem _ hr'))
    have hhead := h r (List.mem_cons_self _ _)
    simp only [serializeRevLoop, htail, hhead]

theorem serializeRevLoop_id (values : Lookup) (c : List Char) :
    ∀ (rs : List MRange), (∀ r ∈ rs, lookupGet values r.key = some r.value) →
      (serializeRevLoop values rs c).1 = c := by
  intro rs
  induction rs with
  | nil => intro _; rfl
  | cons r rest ih =>
    intro h
    have htail := ih (fun r' hr' => h r' (List.mem_cons_of_mem _ hr'))
    have hhead := h r (List.mem_cons_self _ _)
    simp only [serializeRevLoop, hhead, if_pos rfl]
    simpa using htail

/-- The last-seen value recorded for a key by the scanning assignments. -/
def lastValueFor : List MRange → List Char → Option (List Char)
  | [], _ => none
  | r :: rest, k =>
    match lastValueFor rest k with
    | some v => some v
    | none => if r.key = k then some r.value else none

theorem lookupGet_foldl_setKey (k : List Char) :
    ∀ (rs : List MRange) (acc : Lookup),
      lookupGet (rs.foldl (fun m r => setKey m r.key r.value) acc) k =
        match lastValueFor rs k with
        | some v => some v
        | none => lookupGet acc k := by
  intro rs
  induction rs with
  | nil => intro acc; rfl
  | cons r rest ih =>
    intro acc
    rw [List.foldl_cons, ih]
    cases hl : lastValueFor rest k with
    | some v => simp [lastValueFor, hl]
    | none =>
      simp only [lastValueFor, hl, lookupGet_setKey]
      by_cases hk : r.key = k <;> simp [hk]

theorem valuesOfRanges_get (rs : List MRange) (k : List Char) :
    lookupGet (valuesOfRanges rs) k = lastValueFor rs k := by
  unfold valuesOfRanges
  rw [lookupGet_foldl_setKey]
  cases lastValueFor rs k <;> rfl

theorem lastValueFor_isSome_of_mem :
    ∀ (rs : List MRange) (r : MRange), r ∈ rs → (lastValueFor rs r.key).isSome = true := by
  intro rs
  induction rs with
  | nil => intro r h; exact absurd h (by simp)
  | cons r0 rest ih =>
    intro r h
    rcases List.mem_cons.mp h with he | hm
    · subst he
      cases hl : lastValueFor rest r.key with
      | some v => simp [lastValueFor, hl]
      | none => simp [lastValueFor, hl]
    · have := ih r hm
      cases hl : lastValueFor rest r.key with
      | some v => simp [lastValueFor, hl]
      | none => rw [hl] at this; exact absurd this (by simp)

theorem lastValueFor_some_mem :
    ∀ (rs : List MRange) (k v : List Char), lastValueFor rs k = some v →
      ∃ r ∈ rs, r.key = k := by
  intro rs
  induction rs with
  | nil => intro k v h; exact absurd h (by simp [lastValueFor])
  | cons r0 rest ih =>
    intro k v h
    cases hl : lastValueFor rest k with
    | some w =>
      obtain ⟨r, hr, he⟩ := ih k w hl
      exact ⟨r, List.mem_cons_of_mem _ hr, he⟩
    | none =>
      simp only [lastValueFor, hl] at h
      by_cases hk : r0.key = k
      · exact ⟨r0, List.mem_cons_self _ _, hk⟩
      · rw [if_neg hk] at h; exact absurd h (by simp)

theorem mem_setKey (m : Lookup) (k v : List Char) :
    ∀ p ∈ setKey m k v, p ∈ m ∨ p.1 = k := by
  induction m with
  | nil =>
    intro p hp
    simp only [setKey, List.mem_singleton] at hp
    exact Or.inr (by rw [hp])
  | cons q rest ih =>
    obtain ⟨k', v'⟩ := q
    intro p hp
    by_cases h : k' = k
    · simp only [setKey, if_pos h] at hp
      rcases List.mem_cons.mp hp with he | hm
      · exact Or.inr (by rw [he]; exact h)
      · exact Or.inl (List.mem_cons_of_mem _ hm)
    · simp only [setKey, if_neg h] at hp
      rcases List.mem_cons.mp hp with he | hm
      · exact Or.inl (by rw [he]; exact List.mem_cons_self _ _)
      · rcases ih p hm with h1 | h1
        · exact Or.inl (List.mem_cons_of_mem _ h1)
        · exact Or.inr h1

theorem mem_valuesOfRanges :
    ∀ (rs : List MRange) (acc : Lookup) (p : List Char × List Char),
      p ∈ rs.foldl (fun m r => setKey m r.key r.value) acc →
      p ∈ acc ∨ ∃ r ∈ rs, r.key = p.1 := by
  intro rs
  induction rs with
  | nil => intro acc p h; exact Or.inl h
  | cons r rest ih =>
    intro acc p h
    rw [List.foldl_cons] at h
    rcases ih _ p h with h1 | h1
    · rcases mem_setKey acc r.key r.value p h1 with h2 | h2
      · exact Or.inl h2
      · exact Or.inr ⟨r, List.mem_cons_self _ _, h2.symm⟩
    · obtain ⟨r', hr', he⟩ := h1
      exact Or.inr ⟨r', List.mem_cons_of_mem _ hr', he⟩

theorem setKey_append_of_not_mem (k v : List Char) :
    ∀ (m : Lookup), lookupGet m k = none → setKey m k v = m ++ [(k, v)] := by
  intro m
  induction m with
  | nil => intro _; rfl
  | cons q rest ih =>
    obtain ⟨k', v'⟩ := q
    intro h
    by_cases hk : k' = k
    · simp [lookupGet, hk] at h
    · simp only [lookupGet, if_neg hk] at h
      simp [setKey, hk, ih h]

/-! Facts about the new-keys loop. -/

theorem addNewKeys_append (found : List (List Char)) :
    ∀ (xs ys : Lookup) (c : List Char),
      addNewKeys found (xs ++ ys) c = addNewKeys found ys (addNewKeys found xs c) := by
  intro xs
  induction xs with
  | nil => intro ys c; rfl
  | cons p rest ih =>
    intro ys c
    obtain ⟨k, v⟩ := p
    simp only [List.cons_append, addNewKeys]
    exact ih ys _

theorem addNewKeys_all_found (found : List (List Char)) :
    ∀ (kvs : Lookup) (c : List Char), (∀ p ∈ kvs, p.1 ∈ found) →
      addNewKeys found kvs c = c := by
  intro kvs
  induction kvs with
  | nil => intro c _; rfl
  | cons p rest ih =>
    intro c h
    obtain ⟨k, v⟩ := p
    have hk : k ∈ found := h (k, v) (List.mem_cons_self _ _)
    simp only [addNewKeys, if_pos hk]
    exact ih c (fun q hq => h q (List.mem_cons_of_mem _ hq))

theorem addNewKeys_shape (found : List (List Char)) :
    ∀ (kvs : Lookup) (c : List Char), ∃ pre post,
      addNewKeys found kvs c = pre ++ c ++ post := by
  intro kvs
  induction kvs with
  | nil => intro c; exact ⟨[], [], by simp [addNewKeys]⟩
  | cons p rest ih =>
    intro c
    obtain ⟨k, v⟩ := p
    simp only [addNewKeys]
    by_cases h1 : k ∈ found
    · rw [if_pos h1]; exact ih c
    · rw [if_neg h1]
      by_cases h2 : 60 < v.length ∨ k = outputKey
      · rw [if_pos h2]
        obtain ⟨pre, post, hp⟩ := ih (c ++ formatValue k v)
        exact ⟨pre, formatValue k v ++ post, by rw [hp]; simp⟩
      · rw [if_neg h2]
        obtain ⟨pre, post, hp⟩ := ih (formatValue k v ++ c)
        exact ⟨pre ++ formatValue k v, post, by rw [hp]; simp⟩

/-! Occurrence toolkit: transferring `matchAt` facts across appends. -/

theorem indexOfGo_none_forall (s pat : List Char) :
    ∀ (n j : Nat), indexOfGo s pat j n = none →
      ∀ q, j ≤ q → q < j + n → matchAt s pat q = false := by
  intro n
  induction n with
  | zero => intro j _ q _ h2; exact absurd h2 (by omega)
  | succ m ih =>
    intro j h q h1 h2
    by_cases hm : matchAt s pat j = true
    · rw [indexOfGo, if_pos hm] at h; exact absurd h (by simp)
    · have hmf : matchAt s pat j = false := by simpa using hm
      rw [indexOfGo, hmf] at h
      simp only [Bool.false_eq_true, if_false] at h
      rcases Nat.eq_or_lt_of_le h1 with he | hl
      · rw [← he]; exact hmf
      · exact ih (j+1) h q hl (by omega)

theorem hasSub_false_matchAt (s pat : List Char) (hpat : 1 ≤ pat.length)
    (h : hasSub s pat = false) : ∀ q, matchAt s pat q = false := by
  intro q
  by_cases hq : matchAt s pat q = true
  · exfalso
    have hle := matchAt_le_length s pat q hpat hq
    have hnone : indexOfFrom s pat 0 = none := by
      cases hi : indexOfFrom s pat 0 with
      | none => rfl
      | some r => rw [hasSub, hi] at h; exact absurd h (by simp)
    have := indexOfGo_none_forall s pat _ 0 hnone q (by omega) (by omega)
    rw [hq] at this
    exact absurd this (by simp)
  · simpa using hq

theorem hasSub_of_matchAt (s pat : List Char) (q : Nat) (hpat : 1 ≤ pat.length)
    (h : matchAt s pat q = true) : hasSub s pat = true := by
  by_cases hs : hasSub s pat = true
  · exact hs
  · have := hasSub_false_matchAt s pat hpat (by simpa using hs) q
    rw [h] at this
    exact absurd this (by simp)

theorem hasSub_eq_false_of_forall (s pat : List Char)
    (h : ∀ q, matchAt s pat q = false) : hasSub s pat = false := by
  rw [hasSub, indexOfFrom_eq_none s pat 0 (fun q _ => h q)]
  rfl

theorem matchAt_extend (X Y pat : List Char) (q : Nat) (hq : q ≤ X.length)
    (h : matchAt X pat q = true) : matchAt (X ++ Y) pat q = true := by
  obtain ⟨t, ht⟩ := (matchAt_iff X pat q).1 h
  rw [matchAt_iff]
  exact ⟨t ++ Y, by rw [List.drop_append_of_le_length hq, ht, List.append_assoc]⟩

theorem matchAt_restrict (X Y pat : List Char) (q : Nat) (hq : q + pat.length ≤ X.length)
    (h : matchAt (X ++ Y) pat q = true) : matchAt X pat q = true := by
  obtain ⟨t, ht⟩ := (matchAt_iff _ pat q).1 h
  rw [List.drop_append_of_le_length (by omega)] at ht
  have hlen : pat.length ≤ (X.drop q).length := by rw [List.length_drop]; omega
  have htake : (X.drop q).take pat.length = pat := by
    have := congrArg (List.take pat.length) ht
    rw [List.take_append_of_le_length hlen, List.take_left] at this
    exact this
  rw [matchAt_iff]
  refine ⟨(X.drop q).drop pat.length, ?_⟩
  conv_lhs => rw [← List.take_append_drop pat.length (X.drop q)]
  rw [htake]

theorem matchAt_start (pat Y : List Char) : matchAt (pat ++ Y) pat 0 = true := by
  rw [matchAt_iff]; exact ⟨Y, rfl⟩

theorem take_heads_eq (A B u : List Char) (n : Nat) (h : A ++ u = B) (hn : n ≤ A.length) :
    B.take n = A.take n := by
  rw [← h, List.take_append_of_le_length hn]

/-- No occurrence of the opening marker starts strictly inside a
marker-free gap that is followed by a newline (the first character of every
block): an occurrence fitting in the gap contradicts marker-freeness, and a
spanning occurrence would need a newline strictly inside the marker. -/
theorem no_matchAt_in_gap (g t' : List Char) (hg : hasSub g markerStart = false) :
    ∀ q, q < g.length → matchAt (g ++ '\n' :: t') markerStart q = false := by
  intro q hq
  by_cases hm : matchAt (g ++ '\n' :: t') markerStart q = true
  swap
  · simpa using hm
  exfalso
  obtain ⟨u, hu⟩ := (matchAt_iff _ _ _).1 hm
  by_cases hcase : q + markerStart.length ≤ g.length
  · have hin : matchAt g markerStart q = true :=
      matchAt_restrict g ('\n' :: t') markerStart q hcase hm
    have := hasSub_false_matchAt g markerStart (by decide) hg q
    rw [hin] at this
    exact absurd this (by simp)
  · rw [List.drop_append_of_le_length (by omega)] at hu
    -- hu : g.drop q ++ '\n' :: t' = markerStart ++ u
    have hd : (g.drop q).length = g.length - q := List.length_drop _ _
    have hdropd := congrArg (List.drop (g.drop q).length) hu
    rw [List.drop_left, List.drop_append_of_le_length (by omega)] at hdropd
    -- hdropd : '\n' :: t' = markerStart.drop (g.length - q) ++ u
    have hlen1 : 1 ≤ (markerStart.drop (g.drop q).length).length := by
      rw [List.length_drop, hd]
      have : markerStart.length = 14 := by decide
      omega
    have htk := congrArg (List.take 1) hdropd
    rw [List.take_append_of_le_length hlen1] at htk
    -- htk : ['\n'] = (markerStart.drop (g.length - q)).take 1
    have hnot : ∀ d, 1 ≤ d → d ≤ 13 → (markerStart.drop d).take 1 ≠ ['\n'] := by decide
    have hms : markerStart.length = 14 := by decide
    exact hnot (g.drop q).length (by omega) (by omega) htk.symm

/-- No occurrence of the closing marker starts strictly inside a
closing-marker-free block body that is followed by the real closing marker:
a spanning occurrence would need the marker to overlap itself. -/
theorem no_matchAt_before_markerEnd (B T : List Char) (hB : hasSub B markerEnd = false) :
    ∀ q, q < B.length → matchAt (B ++ (markerEnd ++ T)) markerEnd q = false := by
  intro q hq
  by_cases hm : matchAt (B ++ (markerEnd ++ T)) markerEnd q = true
  swap
  · simpa using hm
  exfalso
  obtain ⟨u, hu⟩ := (matchAt_iff _ _ _).1 hm
  by_cases hcase : q + markerEnd.length ≤ B.length
  · have hin : matchAt B markerEnd q = true :=
      matchAt_restrict B (markerEnd ++ T) markerEnd q hcase hm
    have := hasSub_false_matchAt B markerEnd (by decide) hB q
    rw [hin] at this
    exact absurd this (by simp)
  · rw [List.drop_append_of_le_length (by omega)] at hu
    -- hu : B.drop q ++ (markerEnd ++ T) = markerEnd ++ u
    have hd : (B.drop q).length = B.length - q := List.length_drop _ _
    have hme : markerEnd.length = 4 := by decide
    have hdropd := congrArg (List.drop (B.drop q).length) hu
    rw [List.drop_left, List.drop_append_of_le_length (by omega)] at hdropd
    -- hdropd : markerEnd ++ T = markerEnd.drop (B.drop q).length ++ u
    have hlen2 : (markerEnd.drop (B.drop q).length).length =
        markerEnd.length - (B.drop q).length := List.length_drop _ _
    have htk := congrArg (List.take (markerEnd.length - (B.drop q).length)) hdropd
    rw [List.take_append_of_le_length (by omega),
      List.take_append_of_le_length (by omega)] at htk
    conv_rhs at htk => rw [← hlen2, List.take_length]
    -- htk : markerEnd.take (4 - d) = markerEnd.drop d
    have hnot : ∀ d, 1 ≤ d → d ≤ 3 →
        markerEnd.take (markerEnd.length - d) ≠ markerEnd.drop d := by decide
    exact hnot (B.drop q).length (by omega) (by omega) htk

/-- A space never occurs strictly inside a space-free key. -/
theorem no_space_in_key (k Z : List Char) (hk : ∀ c ∈ k, c ≠ ' ') :
    ∀ q, q < k.length → matchAt (k ++ Z) [' '] q = false := by
  intro q hq
  by_cases hm : matchAt (k ++ Z) [' '] q = true
  swap
  · simpa using hm
  exfalso
  obtain ⟨u, hu⟩ := (matchAt_iff _ _ _).1 hm
  rw [List.drop_append_of_le_length (by omega)] at hu
  cases hdq : k.drop q with
  | nil =>
    have := congrArg List.length hdq
    rw [List.length_drop] at this
    simp at this
    omega
  | cons c rest =>
    rw [hdq] at hu
    have hc : c = ' ' := by
      have := congrArg (fun l => List.head? l) hu
      simpa using this
    have hmem : c ∈ k := List.drop_subset q k (by rw [hdq]; exact List.mem_cons_self _ _)
    exact hk c hmem hc

/-- The bytes of a middle segment, recovered by `jsSlice` at its offsets. -/
theorem jsSlice_middle (P mid Q : List Char) :
    jsSlice (P ++ (mid ++ Q)) P.length (P.length + mid.length) = mid := by
  unfold jsSlice
  rw [List.take_append, List.take_left, List.drop_left]

theorem matchAt_at_append (A pat Y : List Char) :
    matchAt (A ++ (pat ++ Y)) pat A.length = true := by
  have h := matchAt_append_shift A (pat ++ Y) pat 0
  rw [Nat.add_zero] at h
  rw [h]
  exact matchAt_start pat Y

theorem matchAt_shift_false (A B pat : List Char) (q : Nat) (h1 : A.length ≤ q)
    (h : matchAt B pat (q - A.length) = false) : matchAt (A ++ B) pat q = false := by
  have hs := matchAt_append_shift A B pat (q - A.length)
  rw [show A.length + (q - A.length) = q from by omega] at hs
  rw [hs, h]

/-! Structured content: an alternation of marker-free gaps and well-formed
blocks.  `parse_assemble` shows the scanner recovers exactly those blocks. -/

/-- Build content from (gap, key, value-text) triples and a final gap. -/
def assemble : List (List Char × List Char × List Char) → List Char → List Char
  | [], gLast => gLast
  | (g, k, w) :: rest, gLast => g ++ (mkBlock k w ++ assemble rest gLast)

/-- Well-formedness of one (gap, key, value-text) triple: the gap holds no
opening marker, the key holds no space, and the block body up to (but not
including) its own closing marker holds no closing marker. -/
abbrev GoodEntry (e : List Char × List Char × List Char) : Prop :=
  hasSub e.1 markerStart = false ∧ (∀ c ∈ e.2.1, c ≠ ' ') ∧
    hasSub (markerStart ++ (e.2.1 ++ ' ' :: e.2.2)) markerEnd = false

/-- Well-formedness of a whole structured content. -/
abbrev GoodShape (L : List (List Char × List Char × List Char)) (gLast : List Char) : Prop :=
  (∀ e ∈ L, GoodEntry e) ∧ hasSub gLast markerStart = false

/-- The ranges the scanner should produce for a structured content starting
at offset `pos`. -/
def rangesForGo : Nat → List (List Char × List Char × List Char) → List MRange
  | _, [] => []
  | pos, (g, k, w) :: rest =>
    { key := k, value := w, start := pos + g.length,
      stop := pos + g.length + (mkBlock k w).length } ::
    rangesForGo (pos + g.length + (mkBlock k w).length) rest

/-- The concatenation of all gaps of a structured content (its non-metadata
bytes). -/
def gapsOf : List (List Char × List Char × List Char) → List Char → List Char
  | [], gLast => gLast
  | (g, _, _) :: rest, gLast => g ++ gapsOf rest gLast

theorem mkBlock_shape (k w : List Char) :
    mkBlock k w = markerStart ++ (k ++ ' ' :: (w ++ markerEnd)) := by
  simp [mkBlock, List.append_assoc]

theorem mkBlock_length (k w : List Char) :
    (mkBlock k w).length =
      markerStart.length + k.length + 1 + w.length + markerEnd.length := by
  simp [mkBlock, List.length_append]
  omega

/-- The scanner on a structured content `A ++ assemble L gLast`, started at
offset `A.length`, finds exactly the assembled blocks. -/
theorem parse_assemble :
    ∀ (fuel : Nat) (L : List (List Char × List Char × List Char)) (gLast A : List Char),
      L.length < fuel →
      (∀ e ∈ L, GoodEntry e) → hasSub gLast markerStart = false →
      parseRangesGo (A ++ assemble L gLast) A.length fuel = rangesForGo A.length L := by
  intro fuel
  induction fuel with
  | zero => intro L gLast A h; exact absurd h (by omega)
  | succ m ih =>
    intro L gLast A hlen hL hg
    cases L with
    | nil =>
      have hnone : indexOfFrom (A ++ assemble [] gLast) markerStart A.length = none := by
        apply indexOfFrom_eq_none
        intro q hq
        exact matchAt_shift_false A _ markerStart q hq
          (hasSub_false_matchAt gLast markerStart (by decide) hg _)
      simp [parseRangesGo, hnone, rangesForGo]
    | cons e rest =>
      obtain ⟨g, k, w⟩ := e
      obtain ⟨hg1, hk1, hkw⟩ := hL (g, k, w) (List.mem_cons_self _ _)
      have hrest : ∀ e ∈ rest, GoodEntry e := fun e he => hL e (List.mem_cons_of_mem _ he)
      have hmsl : markerStart.length = 14 := by decide
      have hmel : markerEnd.length = 4 := by decide
      -- the content and its block-aligned decompositions
      set R := assemble rest gLast with hR
      set S := A ++ assemble ((g, k, w) :: rest) gLast with hSdef
      have hS1 : S = (A ++ g) ++ (mkBlock k w ++ R) := by
        simp [hSdef, assemble, List.append_assoc]
      have hS2 : S = (A ++ g) ++ ((markerStart ++ (k ++ ' ' :: w)) ++ (markerEnd ++ R)) := by
        rw [hS1, mkBlock_shape]
        simp [List.append_assoc]
      have hS3 : S = ((A ++ g) ++ markerStart) ++ (k ++ (' ' :: (w ++ (markerEnd ++ R)))) := by
        rw [hS2]; simp [List.append_assoc]
      have hS4 : S = (((A ++ g) ++ markerStart) ++ k) ++ ([' '] ++ (w ++ (markerEnd ++ R))) := by
        rw [hS3]; simp [List.append_assoc]
      have hS5 : S = ((((A ++ g) ++ markerStart) ++ k) ++ [' ']) ++ (w ++ (markerEnd ++ R)) := by
        rw [hS4]; simp [List.append_assoc]
      have hS6 : S = ((A ++ g) ++ mkBlock k w) ++ R := by
        rw [hS1]; simp [List.append_assoc]
      -- positions
      set i0 := A.length + g.length with hi0
      set ke0 := A.length + g.length + (markerStart.length + k.length) with hke0
      set e0 := A.length + g.length + (markerStart.length + (k.length + (1 + w.length)))
        with he0
      -- the gap holds no opening marker and the block starts with one
      have hF1 : indexOfFrom S markerStart A.length = some i0 := by
        apply indexOfFrom_eq_some _ _ _ _ (by decide)
        · have h := matchAt_at_append (A ++ g) markerStart (k ++ ' ' :: (w ++ markerEnd) ++ R)
          have hsh : (A ++ g) ++ (markerStart ++ ((k ++ ' ' :: (w ++ markerEnd)) ++ R)) = S := by
            rw [hS1, mkBlock_shape]; simp [List.append_assoc]
          rw [show ((A ++ g) ++ (markerStart ++ (k ++ ' ' :: (w ++ markerEnd) ++ R))) = S
            from hsh] at h
          rw [show (A ++ g).length = i0 from by simp [List.length_append]] at h
          exact h
        · omega
        · intro q hq1 hq2
          rw [hSdef]
          apply matchAt_shift_false A _ markerStart q (by omega)
          have hcons : assemble ((g, k, w) :: rest) gLast =
              g ++ ('\n' :: (markerStart.tail ++ ((k ++ ' ' :: w) ++ (markerEnd ++ R)))) := by
            have hms : markerStart = '\n' :: markerStart.tail := by decide
            show g ++ (mkBlock k w ++ R) = _
            rw [mkBlock_shape]
            conv_lhs => rw [hms]
            simp [List.append_assoc]
          rw [hcons]
          exact no_matchAt_in_gap g _ hg1 (q - A.length) (by omega)
      -- the closing marker is first found at the block's own closer
      have hF2 : indexOfFrom S markerEnd i0 = some e0 := by
        apply indexOfFrom_eq_some _ _ _ _ (by decide)
        · have h := matchAt_at_append ((A ++ g) ++ (markerStart ++ (k ++ ' ' :: w)))
            markerEnd R
          rw [show ((A ++ g) ++ (markerStart ++ (k ++ ' ' :: w))) ++ (markerEnd ++ R) = S
            from by rw [hS2]; simp [List.append_assoc]] at h
          rw [show ((A ++ g) ++ (markerStart ++ (k ++ ' ' :: w))).length = e0
            from by simp [List.length_append]; omega] at h
          exact h
        · omega
        · intro q hq1 hq2
          rw [hS2]
          apply matchAt_shift_false (A ++ g) _ markerEnd q
            (by simp [List.length_append]; omega)
          have hq' : q - (A ++ g).length < (markerStart ++ (k ++ ' ' :: w)).length := by
            simp [List.length_append] at hq2 ⊢
            omega
          exact no_matchAt_before_markerEnd (markerStart ++ (k ++ ' ' :: w)) R hkw _ hq'
      -- the key-terminating space is first found right after the key
      have hF3 : indexOfFrom S [' '] (i0 + markerStart.length) = some ke0 := by
        apply indexOfFrom_eq_some _ _ _ _ (by decide)
        · have h := matchAt_at_append (((A ++ g) ++ markerStart) ++ k) [' ']
            (w ++ (markerEnd ++ R))
          rw [show ((((A ++ g) ++ markerStart) ++ k) ++ ([' '] ++ (w ++ (markerEnd ++ R)))) = S
            from hS4.symm] at h
          rw [show (((A ++ g) ++ markerStart) ++ k).length = ke0
            from by simp [List.length_append]; omega] at h
          exact h
        · omega
        · intro q hq1 hq2
          rw [hS3]
          apply matchAt_shift_false ((A ++ g) ++ markerStart) _ [' '] q
            (by simp [List.length_append]; omega)
          have hq' : q - ((A ++ g) ++ markerStart).length < k.length := by
            simp [List.length_append] at hq2 ⊢
            omega
          exact no_space_in_key k _ hk1 _ hq'
      -- the computed key and value
      have hF4 : jsSlice S (i0 + markerStart.length) ke0 = k := by
        have h := jsSlice_middle ((A ++ g) ++ markerStart) k (' ' :: (w ++ (markerEnd ++ R)))
        rw [show (((A ++ g) ++ markerStart) ++ (k ++ ' ' :: (w ++ (markerEnd ++ R)))) = S
          from by rw [hS3]] at h
        rw [show ((A ++ g) ++ markerStart).length = i0 + markerStart.length
          from by simp [List.length_append]; omega] at h
        rw [show i0 + markerStart.length + k.length = ke0 from by omega] at h
        exact h
      have hF5 : jsSlice S (ke0 + 1) e0 = w := by
        have h := jsSlice_middle ((((A ++ g) ++ markerStart) ++ k) ++ [' ']) w
          (markerEnd ++ R)
        rw [show (((((A ++ g) ++ markerStart) ++ k) ++ [' ']) ++ (w ++ (markerEnd ++ R))) = S
          from hS5.symm] at h
        rw [show ((((A ++ g) ++ markerStart) ++ k) ++ [' ']).length = ke0 + 1
          from by simp [List.length_append]; omega] at h
        rw [show ke0 + 1 + w.length = e0 from by omega] at h
        exact h
      -- the recursive call parses the remaining structured content
      have hstop : e0 + markerEnd.length = A.length + g.length + (mkBlock k w).length := by
        rw [mkBlock_length]; omega
      have hF6 : parseRangesGo S (A.length + g.length + (mkBlock k w).length) m =
          rangesForGo (A.length + g.length + (mkBlock k w).length) rest := by
        have h := ih rest gLast ((A ++ g) ++ mkBlock k w) (by simp at hlen; omega) hrest hg
        rw [show ((A ++ g) ++ mkBlock k w) ++ assemble rest gLast = S from hS6.symm] at h
        rw [show ((A ++ g) ++ mkBlock k w).length = A.length + g.length + (mkBlock k w).length
          from by simp [List.length_append]; omega] at h
        exact h
      -- assemble the scanner step
      show parseRangesGo S A.length (m + 1) = _
      rw [show parseRangesGo S A.length (m + 1) =
          { key := jsSlice S (i0 + markerStart.length) ke0,
            value := jsSlice S (ke0 + 1) e0,
            start := i0, stop := e0 + markerEnd.length } ::
          parseRangesGo S (e0 + markerEnd.length) m
        from by simp only [parseRangesGo, hF1, hF2, hF3]]
      rw [hF4, hF5, hstop, hF6]
      show _ = rangesForGo A.length ((g, k, w) :: rest)
      simp only [rangesForGo]

theorem assemble_length_ge :
    ∀ (L : List (List Char × List Char × List Char)) (gLast : List Char),
      L.length ≤ (assemble L gLast).length := by
  intro L
  induction L with
  | nil => intro gLast; simp [assemble]
  | cons e rest ih =>
    obtain ⟨g, k, w⟩ := e
    intro gLast
    have h1 := ih gLast
    have h2 := mkBlock_length k w
    have hmsl : markerStart.length = 14 := by decide
    simp only [assemble, List.length_append, List.length_cons]
    omega

/-- Parsing a well-formed structured content finds exactly its blocks. -/
theorem parseRanges_assemble (L : List (List Char × List Char × List Char))
    (gLast : List Char) (hWF : GoodShape L gLast) :
    parseRanges (assemble L gLast) = rangesForGo 0 L := by
  have hlen : L.length < (assemble L gLast).length + 1 := by
    have := assemble_length_ge L gLast
    omega
  have h := parse_assemble ((assemble L gLast).length + 1) L gLast [] hlen hWF.1 hWF.2
  simpa using h

/-- What the reverse serialization loop leaves of one block. -/
def entryOut (values : Lookup) (k w : List Char) : List Char :=
  match lookupGet values k with
  | some v => if v = w then mkBlock k w else formatValue k v
  | none => []

/-- Per-block rendering of a structured content under a value map. -/
def processed (values : Lookup) :
    List (List Char × List Char × List Char) → List Char → List Char
  | [], gLast => gLast
  | (g, k, w) :: rest, gLast => g ++ (entryOut values k w ++ processed values rest gLast)

theorem renderFrom_assemble (values : Lookup) :
    ∀ (L : List (List Char × List Char × List Char)) (gLast A : List Char),
      renderFrom values (A ++ assemble L gLast) (rangesForGo A.length L) A.length =
        processed values L gLast := by
  intro L
  induction L with
  | nil =>
    intro gLast A
    simp [renderFrom, rangesForGo, assemble, processed, List.drop_left]
  | cons e rest ih =>
    obtain ⟨g, k, w⟩ := e
    intro gLast A
    set R := assemble rest gLast with hR
    set S := A ++ assemble ((g, k, w) :: rest) gLast with hSdef
    have hS1 : S = A ++ (g ++ (mkBlock k w ++ R)) := by
      simp [hSdef, assemble, List.append_assoc]
    have hgap : jsSlice S A.length (A.length + g.length) = g := by
      rw [hS1]; exact jsSlice_middle A g (mkBlock k w ++ R)
    have hspan : jsSlice S (A.length + g.length)
        (A.length + g.length + (mkBlock k w).length) = mkBlock k w := by
      have h := jsSlice_middle (A ++ g) (mkBlock k w) R
      rw [show ((A ++ g) ++ (mkBlock k w ++ R)) = S from by rw [hS1]; simp [List.append_assoc]]
        at h
      rw [show (A ++ g).length = A.length + g.length from by simp] at h
      exact h
    have hrec : renderFrom values S
        (rangesForGo (A.length + g.length + (mkBlock k w).length) rest)
        (A.length + g.length + (mkBlock k w).length) = processed values rest gLast := by
      have h := ih gLast ((A ++ g) ++ mkBlock k w)
      rw [show (((A ++ g) ++ mkBlock k w) ++ assemble rest gLast) = S
        from by rw [hS1]; simp [List.append_assoc]] at h
      rw [show ((A ++ g) ++ mkBlock k w).length = A.length + g.length + (mkBlock k w).length
        from by simp [List.length_append]; omega] at h
      exact h
    show renderFrom values S (rangesForGo A.length ((g, k, w) :: rest)) A.length = _
    simp only [rangesForGo, renderFrom]
    rw [hgap, hrec]
    show g ++ rangeRepl values S
        { key := k, value := w, start := A.length + g.length,
          stop := A.length + g.length + (mkBlock k w).length } ++
        processed values rest gLast = _
    unfold rangeRepl
    simp only []
    show g ++ (match lookupGet values k with
      | some v => if v = w then jsSlice S (A.length + g.length)
          (A.length + g.length + (mkBlock k w).length) else formatValue k v
      | none => []) ++ processed values rest gLast = _
    cases hk : lookupGet values k with
    | some v =>
      by_cases hv : v = w
      · simp only [hv, if_pos rfl, hspan, processed, entryOut, hk]
        simp [List.append_assoc]
      · simp only [if_neg hv, processed, entryOut, hk]
        simp [List.append_assoc, hv]
    | none =>
      simp only [processed, entryOut, hk]
      simp [List.append_assoc]

/-- Core of `getContentsFromLookup` on a structured content: the reverse
loop turns each block into its `entryOut` and leaves every gap untouched. -/
theorem serializeRevLoop_assemble (values : Lookup)
    (L : List (List Char × List Char × List Char)) (gLast : List Char)
    (hWF : GoodShape L gLast) :
    (serializeRevLoop values (parseRanges (assemble L gLast)) (assemble L gLast)).1 =
      processed values L gLast := by
  rw [serializeRevLoop_eq_renderFrom values _ _ 0 (parseRanges_ok _)]
  rw [parseRanges_assemble L gLast hWF]
  have h := renderFrom_assemble values L gLast []
  simpa using h

theorem processed_empty_values :
    ∀ (L : List (List Char × List Char × List Char)) (gLast : List Char),
      processed [] L gLast = gapsOf L gLast := by
  intro L
  induction L with
  | nil => intro gLast; rfl
  | cons e rest ih =>
    obtain ⟨g, k, w⟩ := e
    intro gLast
    simp [processed, entryOut, lookupGet, gapsOf, ih]

/-- The fingerprint of a well-formed structured content is (the digest of)
its gap bytes: stripping deletes exactly the blocks. -/
theorem getHash_assemble (L : List (List Char × List Char × List Char))
    (gLast : List Char) (hWF : GoodShape L gLast) :
    getHash (assemble L gLast) = gapsOf L gLast := by
  show (serializeRevLoop [] (parseRanges (assemble L gLast)) (assemble L gLast)).1 = _
  rw [serializeRevLoop_assemble [] L gLast hWF, processed_empty_values]

/-! Properties of the escaping pass. -/

/-- The closing-marker core `*/` as a pattern. -/
def starSlash : List Char := ['*', '/']

theorem escapeValue_head : ∀ (v : List Char), (escapeValue v).head? = v.head? := by
  intro v
  match v with
  | [] => rfl
  | [c] => rfl
  | c :: c2 :: rest =>
    by_cases h : c = '*' ∧ c2 = '/' <;> simp [escapeValue, h]

theorem matchAt_cons_succ (a : Char) (s pat : List Char) (q : Nat) :
    matchAt (a :: s) pat (q + 1) = matchAt s pat q := rfl

theorem matchAt_nil_false (pat : List Char) (q : Nat) (hpat : pat ≠ []) :
    matchAt ([] : List Char) pat q = false := by
  by_cases hm : matchAt ([] : List Char) pat q = true
  swap
  · simpa using hm
  exfalso
  obtain ⟨t, ht⟩ := (matchAt_iff _ _ _).1 hm
  rw [List.drop_nil] at ht
  exact hpat (List.append_eq_nil.mp ht.symm).1

theorem escape_no_ss_matchAt :
    ∀ (n : Nat) (v : List Char), v.length ≤ n →
      ∀ q, matchAt (escapeValue v) starSlash q = false := by
  intro n
  induction n with
  | zero =>
    intro v hv q
    have hnil : v = [] := by cases v with | nil => rfl | cons a t => simp at hv
    subst hnil
    exact matchAt_nil_false starSlash q (by decide)
  | succ m ih =>
    intro v hv q
    match v with
    | [] => exact matchAt_nil_false starSlash q (by decide)
    | [c] =>
      match q with
      | 0 =>
        by_cases hm : matchAt (escapeValue [c]) starSlash 0 = true
        swap
        · simpa using hm
        exfalso
        obtain ⟨t, ht⟩ := (matchAt_iff _ _ _).1 hm
        rw [List.drop_zero] at ht
        rw [show escapeValue [c] = [c] from rfl] at ht
        simp [starSlash] at ht
      | q + 1 =>
        rw [show escapeValue [c] = [c] from rfl, matchAt_cons_succ]
        exact matchAt_nil_false starSlash q (by decide)
    | c :: c2 :: rest =>
      by_cases hc : c = '*' ∧ c2 = '/'
      · obtain ⟨h1, h2⟩ := hc
        subst h1; subst h2
        rw [show escapeValue ('*' :: '/' :: rest) =
            '*' :: '\\' :: '/' :: escapeValue rest from by simp [escapeValue]]
        match q with
        | 0 =>
          by_cases hm : matchAt ('*' :: '\\' :: '/' :: escapeValue rest) starSlash 0 = true
          swap
          · simpa using hm
          exfalso
          obtain ⟨t, ht⟩ := (matchAt_iff _ _ _).1 hm
          rw [List.drop_zero] at ht
          simp [starSlash] at ht
        | 1 =>
          by_cases hm : matchAt ('*' :: '\\' :: '/' :: escapeValue rest) starSlash 1 = true
          swap
          · simpa using hm
          exfalso
          obtain ⟨t, ht⟩ := (matchAt_iff _ _ _).1 hm
          simp [starSlash] at ht
        | 2 =>
          by_cases hm : matchAt ('*' :: '\\' :: '/' :: escapeValue rest) starSlash 2 = true
          swap
          · simpa using hm
          exfalso
          obtain ⟨t, ht⟩ := (matchAt_iff _ _ _).1 hm
          simp [starSlash] at ht
        | q + 3 =>
          rw [matchAt_cons_succ, matchAt_cons_succ, matchAt_cons_succ]
          exact ih rest (by simp at hv; omega) q
      · rw [show escapeValue (c :: c2 :: rest) = c :: escapeValue (c2 :: rest)
          from by simp [escapeValue, hc]]
        match q with
        | 0 =>
          by_cases hm : matchAt (c :: escapeValue (c2 :: rest)) starSlash 0 = true
          swap
          · simpa using hm
          exfalso
          obtain ⟨t, ht⟩ := (matchAt_iff _ _ _).1 hm
          rw [List.drop_zero] at ht
          have ht' : c :: escapeValue (c2 :: rest) = '*' :: '/' :: t := ht
          injection ht' with hA hB
          have hh := escapeValue_head (c2 :: rest)
          rw [hB] at hh
          simp at hh
          exact hc ⟨hA, hh.symm⟩
        | q + 1 =>
          rw [matchAt_cons_succ]
          exact ih (c2 :: rest) (by simp at hv ⊢; omega) q

theorem escape_no_ss (v : List Char) : hasSub (escapeValue v) starSlash = false :=
  hasSub_eq_false_of_forall _ _ (escape_no_ss_matchAt v.length v (le_refl _))

theorem escape_id_go :
    ∀ (n : Nat) (v : List Char), v.length ≤ n →
      hasSub v starSlash = false → escapeValue v = v := by
  intro n
  induction n with
  | zero =>
    intro v hv _
    cases v with
    | nil => rfl
    | cons a t => simp at hv
  | succ m ih =>
    intro v hv h
    match v with
    | [] => rfl
    | [c] => rfl
    | c :: c2 :: rest =>
      have hq0 := hasSub_false_matchAt _ starSlash (by decide) h 0
      have hc : ¬ (c = '*' ∧ c2 = '/') := by
        rintro ⟨h1, h2⟩
        subst h1; subst h2
        rw [show matchAt ('*' :: '/' :: rest) starSlash 0 = true from by
          rw [matchAt_iff]; exact ⟨rest, rfl⟩] at hq0
        exact absurd hq0 (by simp)
      have htail : hasSub (c2 :: rest) starSlash = false := by
        apply hasSub_eq_false_of_forall
        intro q
        have hq := hasSub_false_matchAt _ starSlash (by decide) h (q + 1)
        rw [matchAt_cons_succ] at hq
        exact hq
      rw [show escapeValue (c :: c2 :: rest) = c :: escapeValue (c2 :: rest)
        from by simp [escapeValue, hc]]
      rw [ih (c2 :: rest) (by simp at hv ⊢; omega) htail]

theorem escape_id (v : List Char) (h : hasSub v starSlash = false) : escapeValue v = v :=
  escape_id_go v.length v (le_refl _) h

theorem hasSub_prefix_false (X Y pat : List Char) (hpat : 1 ≤ pat.length)
    (h : hasSub (X ++ Y) pat = false) : hasSub X pat = false := by
  apply hasSub_eq_false_of_forall
  intro q
  by_cases hq : matchAt X pat q = true
  · exfalso
    have hb := matchAt_le_length X pat q hpat hq
    have hext := matchAt_extend X Y pat q (by omega) hq
    have hf := hasSub_false_matchAt (X ++ Y) pat hpat h q
    rw [hext] at hf
    exact absurd hf (by simp)
  · simpa using hq

theorem starSlash_of_markerEnd (E : List Char) (q : Nat)
    (h : matchAt E markerEnd q = true) : matchAt E starSlash (q + 1) = true := by
  obtain ⟨u, hu⟩ := (matchAt_iff _ _ _).1 h
  rw [matchAt_iff]
  refine ⟨'\n' :: u, ?_⟩
  have hd : E.drop (q + 1) = (E.drop q).drop 1 := by rw [List.drop_drop]
  rw [hd, hu, List.drop_append_of_le_length (by decide)]
  rw [show markerEnd.drop 1 = '*' :: '/' :: '\n' :: [] from by decide]
  rfl

/-- No closing marker occurs in a block body `B' ++ [' '] ++ E` when the
part through the separating space is clean and the tail `E` holds no `*/`:
an occurrence would have to sit in the clean part, sit in `E` (forcing a
`*/` inside `E`), or span the boundary (forcing `E` to start with `*/`). -/
theorem clean_tail_markerEnd (B' E : List Char)
    (hB : hasSub (B' ++ [' ']) markerEnd = false)
    (hE : hasSub E starSlash = false) :
    hasSub ((B' ++ [' ']) ++ E) markerEnd = false := by
  apply hasSub_eq_false_of_forall
  intro q
  by_cases hm : matchAt ((B' ++ [' ']) ++ E) markerEnd q = true
  swap
  · simpa using hm
  exfalso
  by_cases hq1 : (B' ++ [' ']).length ≤ q
  · have hsh := matchAt_append_shift (B' ++ [' ']) E markerEnd (q - (B' ++ [' ']).length)
    rw [show (B' ++ [' ']).length + (q - (B' ++ [' ']).length) = q from by omega] at hsh
    have hmE : matchAt E markerEnd (q - (B' ++ [' ']).length) = true := by
      rw [← hsh]; exact hm
    have hss := starSlash_of_markerEnd E _ hmE
    have hf := hasSub_false_matchAt E starSlash (by decide) hE
      (q - (B' ++ [' ']).length + 1)
    rw [hss] at hf
    exact absurd hf (by simp)
  · push_neg at hq1
    by_cases hq2 : q + markerEnd.length ≤ (B' ++ [' ']).length
    · have hin := matchAt_restrict (B' ++ [' ']) E markerEnd q hq2 hm
      have hf := hasSub_false_matchAt (B' ++ [' ']) markerEnd (by decide) hB q
      rw [hin] at hf
      exact absurd hf (by simp)
    · obtain ⟨u, hu⟩ := (matchAt_iff _ _ _).1 hm
      rw [List.drop_append_of_le_length (by omega)] at hu
      -- hu : (B' ++ [' ']).drop q ++ E = markerEnd ++ u
      have hd : ((B' ++ [' ']).drop q).length = (B' ++ [' ']).length - q :=
        List.length_drop _ _
      have hme : markerEnd.length = 4 := by decide
      have htake : (B' ++ [' ']).drop q = markerEnd.take ((B' ++ [' ']).drop q).length := by
        have h1 := congrArg (List.take ((B' ++ [' ']).drop q).length) hu
        rw [List.take_append_of_le_length (le_refl _), List.take_length,
          List.take_append_of_le_length (by omega)] at h1
        exact h1
      have hqB : q ≤ B'.length := by
        have : (B' ++ [' ']).length = B'.length + 1 := by simp
        omega
      have hlast : ((B' ++ [' ']).drop q).getLast? = some ' ' := by
        rw [List.drop_append_of_le_length hqB]
        exact List.getLast?_concat _
      rw [htake] at hlast
      have hd1 : ∀ d, 1 ≤ d → d ≤ 3 → (markerEnd.take d).getLast? = some ' ' → d = 1 := by
        decide
      have hdeq : ((B' ++ [' ']).drop q).length = 1 :=
        hd1 _ (by omega) (by omega) hlast
      have hdropd := congrArg (List.drop ((B' ++ [' ']).drop q).length) hu
      rw [List.drop_left, List.drop_append_of_le_length (by omega)] at hdropd
      rw [hdeq] at hdropd
      -- hdropd : E = markerEnd.drop 1 ++ u
      have hmE : matchAt E starSlash 0 = true := by
        rw [matchAt_iff]
        refine ⟨'\n' :: u, ?_⟩
        rw [List.drop_zero, hdropd]
        rw [show markerEnd.drop 1 = '*' :: '/' :: '\n' :: [] from by decide]
        rfl
      have hf := hasSub_false_matchAt E starSlash (by decide) hE 0
      rw [hmE] at hf
      exact absurd hf (by simp)

/-- A key that is space-free and clean through the separator yields a clean
block body for any value, because escaping removes every `*/`. -/
theorem goodBlockBody (k v : List Char)
    (hk2 : hasSub (markerStart ++ (k ++ [' '])) markerEnd = false) :
    hasSub (markerStart ++ (k ++ ' ' :: escapeValue v)) markerEnd = false := by
  have hB : hasSub ((markerStart ++ k) ++ [' ']) markerEnd = false := by
    rw [show (markerStart ++ k) ++ [' '] = markerStart ++ (k ++ [' ']) from by
      simp [List.append_assoc]]
    exact hk2
  have h := clean_tail_markerEnd (markerStart ++ k) (escapeValue v) hB (escape_no_ss v)
  rw [show ((markerStart ++ k) ++ [' ']) ++ escapeValue v =
      markerStart ++ (k ++ ' ' :: escapeValue v) from by simp [List.append_assoc]] at h
  exact h

/-- Goodness of a key for introducing a fresh block. -/
abbrev goodNewKey (k : List Char) : Prop :=
  (∀ c ∈ k, c ≠ ' ') ∧ hasSub (markerStart ++ (k ++ [' '])) markerEnd = false

theorem assemble_concat :
    ∀ (M : List (List Char × List Char × List Char)) (gM k w : List Char),
      assemble M gM ++ mkBlock k w = assemble (M ++ [(gM, k, w)]) [] := by
  intro M
  induction M with
  | nil => intro gM k w; simp [assemble]
  | cons e rest ih =>
    obtain ⟨g0, k0, w0⟩ := e
    intro gM k w
    show (g0 ++ (mkBlock k0 w0 ++ assemble rest gM)) ++ mkBlock k w =
      g0 ++ (mkBlock k0 w0 ++ assemble (rest ++ [(gM, k, w)]) [])
    rw [← ih gM k w]
    simp [List.append_assoc]

theorem gapsOf_concat :
    ∀ (M : List (List Char × List Char × List Char)) (gM k w : List Char),
      gapsOf (M ++ [(gM, k, w)]) [] = gapsOf M gM := by
  intro M
  induction M with
  | nil => intro gM k w; simp [gapsOf]
  | cons e rest ih =>
    obtain ⟨g0, k0, w0⟩ := e
    intro gM k w
    show g0 ++ gapsOf (rest ++ [(gM, k, w)]) [] = g0 ++ gapsOf rest gM
    rw [ih gM k w]

/-- The new-keys loop preserves structured shape: every added block becomes
a block entry of the alternation (with an empty or the trailing gap), and
the gap bytes are untouched. -/
theorem addNewKeys_assemble (found : List (List Char)) :
    ∀ (kvs : Lookup) (M : List (List Char × List Char × List Char)) (gM : List Char),
      GoodShape M gM →
      (∀ p ∈ kvs, p.1 ∈ found ∨ goodNewKey p.1) →
      ∃ M' gM', addNewKeys found kvs (assemble M gM) = assemble M' gM' ∧
        GoodShape M' gM' ∧ gapsOf M' gM' = gapsOf M gM := by
  intro kvs
  induction kvs with
  | nil => intro M gM hWF _; exact ⟨M, gM, rfl, hWF, rfl⟩
  | cons p rest ih =>
    obtain ⟨k, v⟩ := p
    intro M gM hWF hkv
    have hrest : ∀ p ∈ rest, p.1 ∈ found ∨ goodNewKey p.1 :=
      fun p hp => hkv p (List.mem_cons_of_mem _ hp)
    by_cases h1 : k ∈ found
    · have hstep : addNewKeys found ((k, v) :: rest) (assemble M gM) =
          addNewKeys found rest (assemble M gM) := by
        simp only [addNewKeys, if_pos h1]
      rw [hstep]
      exact ih M gM hWF hrest
    · have hgood : goodNewKey k := (hkv (k, v) (List.mem_cons_self _ _)).resolve_left h1
      have hfmt : formatValue k v = mkBlock k (escapeValue v) := rfl
      by_cases h2 : 60 < v.length ∨ k = outputKey
      · have hstep : addNewKeys found ((k, v) :: rest) (assemble M gM) =
            addNewKeys found rest (assemble M gM ++ formatValue k v) := by
          simp only [addNewKeys, if_neg h1, if_pos h2]
        rw [hstep, hfmt, assemble_concat M gM k (escapeValue v)]
        have hWF' : GoodShape (M ++ [(gM, k, escapeValue v)]) [] := by
          refine ⟨?_, by decide⟩
          intro e he
          rcases List.mem_append.mp he with hm | hm
          · exact hWF.1 e hm
          · have he2 : e = (gM, k, escapeValue v) := by simpa using hm
            subst he2
            exact ⟨hWF.2, hgood.1, goodBlockBody k v hgood.2⟩
        obtain ⟨M', gM', ha, hb, hc⟩ := ih (M ++ [(gM, k, escapeValue v)]) [] hWF' hrest
        refine ⟨M', gM', ha, hb, ?_⟩
        rw [hc, gapsOf_concat]
      · have hstep : addNewKeys found ((k, v) :: rest) (assemble M gM) =
            addNewKeys found rest (formatValue k v ++ assemble M gM) := by
          simp only [addNewKeys, if_neg h1, if_neg h2]
        have he : formatValue k v ++ assemble M gM =
            assemble (([], k, escapeValue v) :: M) gM := by
          simp [assemble, hfmt]
        rw [hstep, he]
        have hWF' : GoodShape (([], k, escapeValue v) :: M) gM := by
          refine ⟨?_, hWF.2⟩
          intro e he2
          rcases List.mem_cons.mp he2 with hm | hm
          · subst hm
            exact ⟨(by decide : hasSub ([] : List Char) markerStart = false),
              hgood.1, goodBlockBody k v hgood.2⟩
          · exact hWF.1 e hm
        obtain ⟨M', gM', ha, hb, hc⟩ := ih (([], k, escapeValue v) :: M) gM hWF' hrest
        refine ⟨M', gM', ha, hb, ?_⟩
        rw [hc]
        simp [gapsOf]

theorem rangesForGo_keys :
    ∀ (L : List (List Char × List Char × List Char)) (pos : Nat)
      (e : List Char × List Char × List Char), e ∈ L →
      ∃ r ∈ rangesForGo pos L, r.key = e.2.1 := by
  intro L
  induction L with
  | nil => intro pos e he; exact absurd he (by simp)
  | cons e0 rest ih =>
    obtain ⟨g, k, w⟩ := e0
    intro pos e he
    rcases List.mem_cons.mp he with hm | hm
    · subst hm
      exact ⟨_, List.mem_cons_self _ _, rfl⟩
    · obtain ⟨r, hr, hk⟩ := ih (pos + g.length + (mkBlock k w).length) e hm
      exact ⟨r, List.mem_cons_of_mem _ hr, hk⟩

theorem lookupGet_applyMeta (V : Lookup) (h o s q : List Char) :
    lookupGet (setKey (setKey (setKey V lastRunHashKey h) outputKey o) stopKey s) q =
      if stopKey = q then some s
      else if outputKey = q then some o
      else if lastRunHashKey = q then some h
      else lookupGet V q := by
  rw [lookupGet_setKey, lookupGet_setKey, lookupGet_setKey]

/-- The reverse serialization loop turns a well-formed structured content
into another one: gaps survive, kept blocks stay, changed blocks become
freshly formatted (escaped) blocks. -/
theorem processed_eq_assemble (values : Lookup) :
    ∀ (L : List (List Char × List Char × List Char)) (gLast : List Char),
      (∀ e ∈ L, GoodEntry e) →
      (∀ e ∈ L, (lookupGet values e.2.1).isSome = true) →
      ∃ L', assemble L' gLast = processed values L gLast ∧
        (∀ e ∈ L', GoodEntry e) ∧ gapsOf L' gLast = gapsOf L gLast := by
  intro L
  induction L with
  | nil => intro gLast _ _; exact ⟨[], rfl, by simp, rfl⟩
  | cons e0 rest ih =>
    obtain ⟨g, k, w⟩ := e0
    intro gLast hGE hsome
    obtain ⟨hg1, hk1, hkw⟩ := hGE (g, k, w) (List.mem_cons_self _ _)
    obtain ⟨L', ha, hb, hc⟩ := ih gLast (fun e he => hGE e (List.mem_cons_of_mem _ he))
      (fun e he => hsome e (List.mem_cons_of_mem _ he))
    have hs := hsome (g, k, w) (List.mem_cons_self _ _)
    cases hk : lookupGet values k with
    | none =>
      rw [show lookupGet values (g, k, w).2.1 = lookupGet values k from rfl, hk] at hs
      exact absurd hs (by simp)
    | some v =>
      by_cases hv : v = w
      · refine ⟨(g, k, w) :: L', ?_, ?_, ?_⟩
        · show g ++ (mkBlock k w ++ assemble L' gLast) = _
          rw [ha]
          show _ = g ++ (entryOut values k w ++ processed values rest gLast)
          rw [show entryOut values k w = mkBlock k w from by
            unfold entryOut; rw [hk]; simp [hv]]
        · intro e he
          rcases List.mem_cons.mp he with hm | hm
          · subst hm; exact ⟨hg1, hk1, hkw⟩
          · exact hb e hm
        · show g ++ gapsOf L' gLast = g ++ gapsOf rest gLast
          rw [hc]
      · refine ⟨(g, k, escapeValue v) :: L', ?_, ?_, ?_⟩
        · show g ++ (mkBlock k (escapeValue v) ++ assemble L' gLast) = _
          rw [ha]
          show _ = g ++ (entryOut values k w ++ processed values rest gLast)
          rw [show entryOut values k w = formatValue k v from by
            unfold entryOut; rw [hk]; simp [hv]]
          rfl
        · intro e he
          rcases List.mem_cons.mp he with hm | hm
          · subst hm
            refine ⟨hg1, hk1, ?_⟩
            apply goodBlockBody
            have hpref := hasSub_prefix_false (markerStart ++ (k ++ [' '])) w markerEnd
              (by decide) ?_
            · exact hpref
            · rw [show (markerStart ++ (k ++ [' '])) ++ w =
                markerStart ++ (k ++ ' ' :: w) from by simp [List.append_assoc]]
              exact hkw
          · exact hb e hm
        · show g ++ gapsOf L' gLast = g ++ gapsOf rest gLast
          rw [hc]

/-- Any metadata assignment of `lastRunHash`/`output`/`stop` on a
well-formed structured content serializes to content whose fingerprint is
exactly the original gap bytes. -/
theorem getHash_applyMeta (L : List (List Char × List Char × List Char))
    (gLast : List Char) (hWF : GoodShape L gLast) (h o s : List Char) :
    getHash (getContentsFromLookup
        (applyMeta (getCommentValueLookup (assemble L gLast)) h o s)) =
      gapsOf L gLast := by
  have hsome : ∀ r ∈ parseRanges (assemble L gLast),
      (lookupGet (setKey (setKey (setKey
          (valuesOfRanges (parseRanges (assemble L gLast))) lastRunHashKey h)
          outputKey o) stopKey s) r.key).isSome = true := by
    intro r hr
    rw [lookupGet_applyMeta]
    split_ifs <;> try simp
    rw [valuesOfRanges_get]
    exact lastValueFor_isSome_of_mem _ r hr
  have hcore : (serializeRevLoop (setKey (setKey (setKey
      (valuesOfRanges (parseRanges (assemble L gLast))) lastRunHashKey h)
      outputKey o) stopKey s) (parseRanges (assemble L gLast)) (assemble L gLast)).1 =
      processed (setKey (setKey (setKey
        (valuesOfRanges (parseRanges (assemble L gLast))) lastRunHashKey h)
        outputKey o) stopKey s) L gLast :=
    serializeRevLoop_assemble _ L gLast hWF
  have hsomeL : ∀ e ∈ L, (lookupGet (setKey (setKey (setKey
      (valuesOfRanges (parseRanges (assemble L gLast))) lastRunHashKey h)
      outputKey o) stopKey s) e.2.1).isSome = true := by
    intro e he
    obtain ⟨r, hr, hk⟩ := rangesForGo_keys L 0 e he
    rw [← parseRanges_assemble L gLast hWF] at hr
    rw [← hk]
    exact hsome r hr
  obtain ⟨L1, hL1a, hL1b, hL1c⟩ := processed_eq_assemble _ L gLast hWF.1 hsomeL
  have hcover : ∀ p ∈ (setKey (setKey (setKey
      (valuesOfRanges (parseRanges (assemble L gLast))) lastRunHashKey h)
      outputKey o) stopKey s),
      p.1 ∈ (serializeRevLoop (setKey (setKey (setKey
        (valuesOfRanges (parseRanges (assemble L gLast))) lastRunHashKey h)
        outputKey o) stopKey s) (parseRanges (assemble L gLast)) (assemble L gLast)).2 ∨
      goodNewKey p.1 := by
    intro p hp
    rcases mem_setKey _ stopKey s p hp with hp2 | hp2
    · rcases mem_setKey _ outputKey o p hp2 with hp3 | hp3
      · rcases mem_setKey _ lastRunHashKey h p hp3 with hp4 | hp4
        · left
          rcases mem_valuesOfRanges (parseRanges (assemble L gLast)) [] p hp4 with h9 | h9
          · exact absurd h9 (by simp)
          · obtain ⟨r, hr, hk⟩ := h9
            rw [← hk]
            exact serializeRevLoop_found_mem _ _ _ r hr (hsome r hr)
        · right; rw [hp4]; exact (by decide : goodNewKey lastRunHashKey)
      · right; rw [hp3]; exact (by decide : goodNewKey outputKey)
    · right; rw [hp2]; exact (by decide : goodNewKey stopKey)
  obtain ⟨L2, g2, hA, hB2, hC2⟩ := addNewKeys_assemble _ _ L1 gLast ⟨hL1b, hWF.2⟩ hcover
  have hser : getContentsFromLookup
      (applyMeta (getCommentValueLookup (assemble L gLast)) h o s) = assemble L2 g2 := by
    show addNewKeys
        (serializeRevLoop (setKey (setKey (setKey
          (valuesOfRanges (parseRanges (assemble L gLast))) lastRunHashKey h)
          outputKey o) stopKey s) (parseRanges (assemble L gLast)) (assemble L gLast)).2
        (setKey (setKey (setKey
          (valuesOfRanges (parseRanges (assemble L gLast))) lastRunHashKey h)
          outputKey o) stopKey s)
        (serializeRevLoop (setKey (setKey (setKey
          (valuesOfRanges (parseRanges (assemble L gLast))) lastRunHashKey h)
          outputKey o) stopKey s) (parseRanges (assemble L gLast)) (assemble L gLast)).1 =
        assemble L2 g2
    rw [hcore, ← hL1a]
    exact hA
  rw [hser, getHash_assemble L2 g2 hB2, hC2, hL1c]

/-!
### C2 — round-trip idempotence

The claim as stated fails: when a key occurs in two blocks with different
values, every earlier occurrence is rewritten to the last-seen value by the
reverse serialization loop.  The counterexample below exhibits this.  The
round trip is byte-identical exactly when every parsed range's value agrees
with the value map's entry for its key (in particular when no key repeats
with differing values).
-/

/-- Counterexample for claim C2: a content with two well-formed blocks for the
same key `k` holding different values is not reproduced byte-identically by
`getContentsFromLookup ∘ getCommentValueLookup` — the earlier block is
rewritten to the last-seen value. -/
theorem serialize_parse_not_id_on_dup_key :
    getContentsFromLookup (getCommentValueLookup
        ("X\n/** @autorun-k a */\nY\n/** @autorun-k b */\nZ".toList)) ≠
      "X\n/** @autorun-k a */\nY\n/** @autorun-k b */\nZ".toList := by decide

theorem parse_values_covered (C : List Char) :
    ∀ p ∈ valuesOfRanges (parseRanges C),
      p.1 ∈ (serializeRevLoop (valuesOfRanges (parseRanges C)) (parseRanges C) C).2 := by
  intro p hp
  have hmem : p ∈ (parseRanges C).foldl (fun m r => setKey m r.key r.value) [] := hp
  rcases mem_valuesOfRanges (parseRanges C) [] p hmem with h | h
  · exact absurd h (by simp)
  · obtain ⟨r, hr, he⟩ := h
    have hs : (lookupGet (valuesOfRanges (parseRanges C)) r.key).isSome = true := by
      rw [valuesOfRanges_get]
      exact lastValueFor_isSome_of_mem (parseRanges C) r hr
    have := serializeRevLoop_found_mem (valuesOfRanges (parseRanges C)) C
      (parseRanges C) r hr hs
    rw [he] at this
    exact this

/-- Claim C2, amended: serializing an unmodified parse reproduces the content
byte-identically whenever every parsed range's value coincides with the
value map's (last-seen) entry for its key — in particular whenever no key
occurs in two blocks with different values. -/
theorem serialize_parse_id (C : List Char)
    (H : ∀ r ∈ parseRanges C, lastValueFor (parseRanges C) r.key = some r.value) :
    getContentsFromLookup (getCommentValueLookup C) = C := by
  have hvals : ∀ r ∈ parseRanges C,
      lookupGet (valuesOfRanges (parseRanges C)) r.key = some r.value := by
    intro r hr
    rw [valuesOfRanges_get]
    exact H r hr
  have hloop : (serializeRevLoop (valuesOfRanges (parseRanges C)) (parseRanges C) C).1 = C :=
    serializeRevLoop_id _ C (parseRanges C) hvals
  show addNewKeys (serializeRevLoop (valuesOfRanges (parseRanges C)) (parseRanges C) C).2
      (valuesOfRanges (parseRanges C))
      (serializeRevLoop (valuesOfRanges (parseRanges C)) (parseRanges C) C).1 = C
  rw [addNewKeys_all_found _ _ _ (parse_values_covered C), hloop]

/-- Witness for the amended C2 on a content with one well-formed block. -/
theorem serialize_parse_id_witness :
    (∀ r ∈ parseRanges "hello\n/** @autorun-k v */\nworld".toList,
      lastValueFor (parseRanges "hello\n/** @autorun-k v */\nworld".toList) r.key =
        some r.value) ∧
    getContentsFromLookup (getCommentValueLookup "hello\n/** @autorun-k v */\nworld".toList) =
      "hello\n/** @autorun-k v */\nworld".toList :=
  ⟨by decide, serialize_parse_id "hello\n/** @autorun-k v */\nworld".toList (by decide)⟩

/-! ### C9 — placement of newly introduced keys -/

/-- Claim C9: a key present in the value map but absent from the parsed
ranges gets a freshly formatted block appended at the end of the serialized
content exactly when its value is longer than 60 characters or the key is
`output`, and prepended at the start otherwise. -/
theorem new_key_placement (C k v : List Char)
    (hk : ∀ r ∈ parseRanges C, r.key ≠ k) :
    getContentsFromLookup { getCommentValueLookup C with
        values := setKey (getCommentValueLookup C).values k v } =
      if 60 < v.length ∨ k = outputKey
      then getContentsFromLookup (getCommentValueLookup C) ++ formatValue k v
      else formatValue k v ++ getContentsFromLookup (getCommentValueLookup C) := by
  have hnotin : lookupGet (valuesOfRanges (parseRanges C)) k = none := by
    rw [valuesOfRanges_get]
    cases hl : lastValueFor (parseRanges C) k with
    | none => rfl
    | some w =>
      obtain ⟨r, hr, he⟩ := lastValueFor_some_mem (parseRanges C) k w hl
      exact absurd he (hk r hr)
  have hset : setKey (valuesOfRanges (parseRanges C)) k v =
      valuesOfRanges (parseRanges C) ++ [(k, v)] :=
    setKey_append_of_not_mem k v _ hnotin
  have hcongr : serializeRevLoop (setKey (valuesOfRanges (parseRanges C)) k v)
      (parseRanges C) C = serializeRevLoop (valuesOfRanges (parseRanges C))
      (parseRanges C) C := by
    apply serializeRevLoop_congr
    intro r hr
    rw [lookupGet_setKey, if_neg (fun e => (hk r hr) e.symm)]
  have hkfound : k ∉ (serializeRevLoop (valuesOfRanges (parseRanges C))
      (parseRanges C) C).2 := by
    intro hmem
    obtain ⟨r, hr, he⟩ := serializeRevLoop_found_sub (valuesOfRanges (parseRanges C)) C
      (parseRanges C) k hmem
    exact (hk r hr) he
  have hbase : getContentsFromLookup (getCommentValueLookup C) =
      (serializeRevLoop (valuesOfRanges (parseRanges C)) (parseRanges C) C).1 := by
    show addNewKeys (serializeRevLoop (valuesOfRanges (parseRanges C)) (parseRanges C) C).2
        (valuesOfRanges (parseRanges C))
        (serializeRevLoop (valuesOfRanges (parseRanges C)) (parseRanges C) C).1 = _
    exact addNewKeys_all_found _ _ _ (parse_values_covered C)
  show addNewKeys
      (serializeRevLoop (setKey (valuesOfRanges (parseRanges C)) k v) (parseRanges C) C).2
      (setKey (valuesOfRanges (parseRanges C)) k v)
      (serializeRevLoop (setKey (valuesOfRanges (parseRanges C)) k v) (parseRanges C) C).1 = _
  rw [hcongr, hset, addNewKeys_append,
    addNewKeys_all_found _ _ _ (parse_values_covered C)]
  simp only [addNewKeys]
  rw [if_neg hkfound, hbase]

/-- Witness for C9 (prepend branch: short value, key other than `output`). -/
theorem new_key_placement_witness :
    (∀ r ∈ parseRanges "A".toList, r.key ≠ "x".toList) ∧
    getContentsFromLookup { getCommentValueLookup "A".toList with
        values := setKey (getCommentValueLookup "A".toList).values "x".toList "y".toList } =
      if 60 < "y".toList.length ∨ "x".toList = outputKey
      then getContentsFromLookup (getCommentValueLookup "A".toList) ++
        formatValue "x".toList "y".toList
      else formatValue "x".toList "y".toList ++
        getContentsFromLookup (getCommentValueLookup "A".toList) :=
  ⟨by decide, new_key_placement "A".toList "x".toList "y".toList (by decide)⟩

/-! ### C10 — serialization frame

The decomposition below shows that the serialized content is the original
content's bytes outside every parsed range, verbatim and in file order (the
`jsSlice o pos r.start` gaps and the final `o.drop` inside `renderFrom`),
interleaved with per-range replacement text, with newly introduced blocks
prepended (`pre`) and appended (`post`) at the two extremities only. -/

/-- Claim C10: for every value map, serialization against the ranges parsed
from `C` touches only bytes inside those ranges plus the two extremities:
the result is some prefix `pre`, then the gap/replacement rendering of `C`
(whose gap segments are the bytes of `C` outside every range, unchanged and
in the same relative order), then some suffix `post`. -/
theorem serialize_frame (C : List Char) (vs : Lookup) :
    ∃ pre post,
      getContentsFromLookup { values := vs, ranges := parseRanges C, original := C } =
        pre ++ renderFrom vs C (parseRanges C) 0 ++ post := by
  have hloop : (serializeRevLoop vs (parseRanges C) C).1 =
      renderFrom vs C (parseRanges C) 0 := by
    have := serializeRevLoop_eq_renderFrom vs C (parseRanges C) 0 (parseRanges_ok C)
    simpa using this
  obtain ⟨pre, post, hp⟩ := addNewKeys_shape (serializeRevLoop vs (parseRanges C) C).2 vs
    (serializeRevLoop vs (parseRanges C) C).1
  refine ⟨pre, post, ?_⟩
  show addNewKeys (serializeRevLoop vs (parseRanges C) C).2 vs
      (serializeRevLoop vs (parseRanges C) C).1 = _
  rw [hp, hloop]

/-! ### C6 — escaping round-trip

`formatValue` escapes `*/` to `*\/`, but `getCommentValueLookup` performs no
unescaping, so a value containing the closing-marker text does not come back
verbatim; it comes back in its escaped form.
-/

/-- Counterexample for claim C6: serializing a block holding the value `*/`
and parsing it back yields `*\/`, not the original value. -/
theorem parse_format_not_id_on_marker_value :
    lookupGet (getCommentValueLookup (formatValue "k".toList "*/".toList)).values
        "k".toList ≠ some "*/".toList := by decide

/-- Claim C6, amended: for a space-free key whose marker context is clean,
parsing a serialized block yields the *escaped* value text (each `*/`
replaced with `*\/`), which coincides with the original value exactly when
the value holds no occurrence of `*/`. -/
theorem parse_format_value (k v : List Char)
    (hk1 : ∀ c ∈ k, c ≠ ' ')
    (hk2 : hasSub (markerStart ++ (k ++ [' '])) markerEnd = false) :
    lookupGet (getCommentValueLookup (formatValue k v)).values k = some (escapeValue v) ∧
    (hasSub v starSlash = false → escapeValue v = v) := by
  constructor
  · have hform : formatValue k v = assemble [([], k, escapeValue v)] [] := by
      simp [assemble, formatValue, mkBlock]
    have hWF : GoodShape [([], k, escapeValue v)] [] := by
      refine ⟨?_, by decide⟩
      intro e he
      have he2 : e = ([], k, escapeValue v) := by simpa using he
      subst he2
      exact ⟨(by decide : hasSub ([] : List Char) markerStart = false), hk1,
        goodBlockBody k v hk2⟩
    have hpr : parseRanges (formatValue k v) = rangesForGo 0 [([], k, escapeValue v)] := by
      rw [hform]
      exact parseRanges_assemble _ _ hWF
    show lookupGet (valuesOfRanges (parseRanges (formatValue k v))) k = _
    rw [hpr]
    simp [rangesForGo, valuesOfRanges, setKey, lookupGet]
  · exact escape_id v

/-- Witness for the amended C6: the value `a*/b` parses back escaped, and a
marker-free value (`ab`) parses back verbatim. -/
theorem parse_format_value_witness :
    ((∀ c ∈ "k".toList, c ≠ ' ') ∧
      hasSub (markerStart ++ ("k".toList ++ [' '])) markerEnd = false) ∧
    lookupGet (getCommentValueLookup (formatValue "k".toList "a*/b".toList)).values
        "k".toList = some (escapeValue "a*/b".toList) ∧
    escapeValue "a*/b".toList = "a*\\/b".toList ∧
    (hasSub "ab".toList starSlash = false → escapeValue "ab".toList = "ab".toList) :=
  ⟨⟨by decide, by decide⟩,
    (parse_format_value "k".toList "a*/b".toList (by decide) (by decide)).1,
    by decide,
    (parse_format_value "k".toList "ab".toList (by decide) (by decide)).2⟩

/-! ### C1 — fingerprint stability

The claim quantifies over every base content.  It fails on contents holding a
stray unterminated opening marker: serializing metadata into such a content
makes the stray marker pair up with an appended block's closing marker, so
stripping removes different text before and after the edit.  This is the very
situation the code's own runtime assertion in `writeContents` guards against.
-/

/-- Counterexample for claim C1: for the base content `"A\n/** @autorun-"`
(a stray opening marker, zero parsed blocks) and the metadata assignment
`lastRunHash := "h"`, `output := "o"`, `stop := "s"`, the fingerprint of the
serialized content differs from the fingerprint of the base content. -/
theorem fingerprint_unstable_on_stray_marker :
    getHash (getContentsFromLookup (applyMeta
        (getCommentValueLookup "A\n/** @autorun-".toList) "h".toList "o".toList "s".toList)) ≠
      getHash "A\n/** @autorun-".toList := by decide

/-- Claim C1, amended: fingerprint stability holds for every base content
whose opening-marker occurrences lie only inside well-formed blocks, i.e.
contents of the form `assemble L gLast` (marker-free gaps alternating with
well-formed blocks).  For any two assignments of the metadata values
`lastRunHash`/`output`/`stop`, the fingerprints of the two serialized
contents agree, and both agree with the fingerprint of the base content
(whose canonical stripped text is exactly the gap bytes). -/
theorem fingerprint_stable_of_goodShape
    (L : List (List Char × List Char × List Char)) (gLast : List Char)
    (hWF : GoodShape L gLast) (h1 o1 s1 h2 o2 s2 : List Char) :
    getHash (getContentsFromLookup
        (applyMeta (getCommentValueLookup (assemble L gLast)) h1 o1 s1)) =
      getHash (getContentsFromLookup
        (applyMeta (getCommentValueLookup (assemble L gLast)) h2 o2 s2)) ∧
    getHash (getContentsFromLookup
        (applyMeta (getCommentValueLookup (assemble L gLast)) h1 o1 s1)) =
      getHash (assemble L gLast) := by
  have k1 := getHash_applyMeta L gLast hWF h1 o1 s1
  have k2 := getHash_applyMeta L gLast hWF h2 o2 s2
  have k3 := getHash_assemble L gLast hWF
  exact ⟨k1.trans k2.symm, k1.trans k3.symm⟩

/-- Witness for the amended C1 on a one-block content with two distinct
assignments. -/
theorem fingerprint_stable_witness :
    GoodShape [("X".toList, "k".toList, "v".toList)] "Y".toList ∧
    (getHash (getContentsFromLookup
        (applyMeta (getCommentValueLookup
          (assemble [("X".toList, "k".toList, "v".toList)] "Y".toList))
          "a".toList "b".toList "c".toList)) =
      getHash (getContentsFromLookup
        (applyMeta (getCommentValueLookup
          (assemble [("X".toList, "k".toList, "v".toList)] "Y".toList))
          "d".toList "e".toList "f".toList)) ∧
    getHash (getContentsFromLookup
        (applyMeta (getCommentValueLookup
          (assemble [("X".toList, "k".toList, "v".toList)] "Y".toList))
          "a".toList "b".toList "c".toList)) =
      getHash (assemble [("X".toList, "k".toList, "v".toList)] "Y".toList)) :=
  ⟨by decide, fingerprint_stable_of_goodShape [("X".toList, "k".toList, "v".toList)]
    "Y".toList (by decide) "a".toList "b".toList "c".toList
    "d".toList "e".toList "f".toList⟩

/-! ### C4 — debounce -/

theorem coordRun_append (s : PendingState) (xs ys : List CoordEvent) :
    coordRun s (xs ++ ys) = coordRun (coordRun s xs) ys :=
  List.foldl_append _ _ _ _

theorem coordRun_replicate_trigger (s : PendingState) (h : s.running = true) :
    ∀ n : Nat, coordRun s (List.replicate n .trigger) =
      if n = 0 then s else { s with retrigger := true } := by
  intro n
  induction n generalizing s with
  | zero => rfl
  | succ m ih =>
    have step : coordStep s .trigger = { s with retrigger := true } := by
      simp [coordStep, h]
    have : coordRun s (List.replicate (m+1) .trigger) =
        coordRun { s with retrigger := true } (List.replicate m .trigger) := by
      simp [List.replicate_succ, coordRun, step]
    rw [this, ih _ (by simpa using h)]
    cases m <;> simp

/-- Claim C4: with a run in flight and no retrigger recorded, any burst of
`n ≥ 1` triggers followed by the completion of the in-flight run and of the
one follow-up run yields exactly one additional run (not `n`); moreover a
trigger never starts a run while one is in flight. -/
theorem trigger_burst_collapses (s : PendingState) (n : Nat)
    (hrun : s.running = true) (hnr : s.retrigger = false) (hn : 1 ≤ n) :
    coordRun s (List.replicate n .trigger ++ [.finish, .finish]) =
      { running := false, retrigger := false, runs := s.runs + 1 } ∧
    (∀ t : PendingState, t.running = true →
      coordStep t .trigger = { t with retrigger := true }) ∧
    (∀ t : PendingState, (coordStep t .trigger).runs ≠ t.runs → t.running = false) := by
  refine ⟨?_, ?_, ?_⟩
  · rw [coordRun_append, coordRun_replicate_trigger s hrun n]
    have hn0 : ¬ n = 0 := by omega
    simp only [hn0, if_false]
    simp [coordRun, coordStep, hrun]
  · intro t ht; simp [coordStep, ht]
  · intro t ht
    by_cases h : t.running = true
    · simp [coordStep, h] at ht
    · simpa using h

/-- Witness for C4 at `n = 5` from the state `running, no retrigger, 1 run`. -/
theorem trigger_burst_collapses_witness :
    (({ running := true, retrigger := false, runs := 1 } : PendingState).running = true ∧
      ({ running := true, retrigger := false, runs := 1 } : PendingState).retrigger = false ∧
      1 ≤ 5) ∧
    coordRun { running := true, retrigger := false, runs := 1 }
        (List.replicate 5 .trigger ++ [.finish, .finish]) =
      { running := false, retrigger := false, runs := 2 } :=
  ⟨⟨rfl, rfl, by omega⟩,
    (trigger_burst_collapses { running := true, retrigger := false, runs := 1 } 5
      rfl rfl (by omega)).1⟩

/-! ### C5 — skip on unchanged -/

/-- Claim C5: when the parsed `lastRunHash` equals the fingerprint of the
current content, the run attempt abandons at the gate: no child process is
spawned and no write happens. -/
theorem skip_on_unchanged (c : List Char) (runFx : List Fx)
    (h : lookupGet (getCommentValueLookup c).values lastRunHashKey = some (getHash c)) :
    runGate (some c) = GateOutcome.skipUnchanged ∧ gateEffects (some c) runFx = [] := by
  constructor
  · simp [runGate, h]
  · simp [gateEffects, runGate, h]

/-- Witness for C5 on a concrete file whose stored hash is up to date. -/
theorem skip_on_unchanged_witness :
    lookupGet (getCommentValueLookup "\n/** @autorun-lastRunHash A */\nA".toList).values
        lastRunHashKey = some (getHash "\n/** @autorun-lastRunHash A */\nA".toList) ∧
    runGate (some "\n/** @autorun-lastRunHash A */\nA".toList) = GateOutcome.skipUnchanged ∧
    gateEffects (some "\n/** @autorun-lastRunHash A */\nA".toList) [Fx.spawnChild] = [] :=
  ⟨by decide, skip_on_unchanged "\n/** @autorun-lastRunHash A */\nA".toList
    [Fx.spawnChild] (by decide)⟩

/-! ### C3 — stop sentinel cancels the run -/

/-- Claim C3: when the fresh re-read of the file contains a `stop` key, the
checkpoint kills the child, adopts the freshly read metadata as the base
values — independently of the run's accumulated output and pending update —
removes the `stop` key, writes the re-serialized result back, and marks the
job done, after which every further checkpoint is skipped. -/
theorem stop_cancels_run (disk : List Char) (ov ov' : LookupState)
    (out out' hash hash' : List Char)
    (hstop : (lookupGet (getCommentValueLookup disk).values stopKey).isSome = true) :
    writeContents false (some disk) ov out hash =
      WCResult.stopped (adoptedState (getCommentValueLookup disk))
        (getContentsFromLookup (adoptedState (getCommentValueLookup disk))) ∧
    writeContents false (some disk) ov out hash =
      writeContents false (some disk) ov' out' hash' ∧
    Fx.killChild ∈ wcEffects (writeContents false (some disk) ov out hash) ∧
    Fx.fileWrite (getContentsFromLookup (adoptedState (getCommentValueLookup disk))) ∈
      wcEffects (writeContents false (some disk) ov out hash) ∧
    lookupGet (adoptedState (getCommentValueLookup disk)).values stopKey = none ∧
    wcDone false (writeContents false (some disk) ov out hash) = true ∧
    (∀ (d : Option (List Char)) (o2 : LookupState) (x y : List Char),
      writeContents true d o2 x y = WCResult.skipped) := by
  have hw : writeContents false (some disk) ov out hash =
      WCResult.stopped (adoptedState (getCommentValueLookup disk))
        (getContentsFromLookup (adoptedState (getCommentValueLookup disk))) := by
    simp [writeContents, hstop]
  have hw' : writeContents false (some disk) ov' out' hash' =
      WCResult.stopped (adoptedState (getCommentValueLookup disk))
        (getContentsFromLookup (adoptedState (getCommentValueLookup disk))) := by
    simp [writeContents, hstop]
  refine ⟨hw, hw.trans hw'.symm, ?_, ?_, ?_, ?_, fun d o2 x y => rfl⟩
  · rw [hw]; simp [wcEffects]
  · rw [hw]; simp [wcEffects]
  · exact lookupGet_removeKey_self _ _
  · rw [hw]; rfl

/-- Witness for C3 on a concrete on-disk content carrying a `stop` block. -/
theorem stop_cancels_run_witness :
    (lookupGet (getCommentValueLookup "B\n/** @autorun-stop 1 */\n".toList).values
        stopKey).isSome = true ∧
    writeContents false (some "B\n/** @autorun-stop 1 */\n".toList)
        (getCommentValueLookup "old".toList) "ignored".toList "hh".toList =
      WCResult.stopped (adoptedState (getCommentValueLookup "B\n/** @autorun-stop 1 */\n".toList))
        (getContentsFromLookup
          (adoptedState (getCommentValueLookup "B\n/** @autorun-stop 1 */\n".toList))) :=
  ⟨by decide,
    (stop_cancels_run "B\n/** @autorun-stop 1 */\n".toList
      (getCommentValueLookup "old".toList) (getCommentValueLookup "old".toList)
      "ignored".toList "ignored".toList "hh".toList "hh".toList (by decide)).1⟩

/-! ### C7 — fingerprint-mismatch assertion -/

/-- Claim C7: on a non-cancelling checkpoint whose re-serialized content has a
different fingerprint than the gate's, the assertion throws before the file
write (no write effect); the error is contained at the per-file boundary: the
`finally` block still fires a queued retrigger, and states of other filenames
are untouched. -/
theorem hash_mismatch_contained (disk : List Char) (ov : LookupState) (out hash : List Char)
    (hnostop : lookupGet (getCommentValueLookup disk).values stopKey = none)
    (hmm : getHash (getContentsFromLookup (updatedState ov out hash)) ≠ hash) :
    writeContents false (some disk) ov out hash =
      WCResult.invariantError (updatedState ov out hash)
        (getContentsFromLookup (updatedState ov out hash)) ∧
    wcEffects (writeContents false (some disk) ov out hash) = [] ∧
    (∀ s : PendingState, s.running = true → s.retrigger = true →
      coordStep s .finish = { running := true, retrigger := false, runs := s.runs + 1 }) ∧
    (∀ (m : List Char → PendingState) (name other : List Char) (e : CoordEvent),
      other ≠ name → filesStep m name e other = m other) := by
  have hw : writeContents false (some disk) ov out hash =
      WCResult.invariantError (updatedState ov out hash)
        (getContentsFromLookup (updatedState ov out hash)) := by
    simp [writeContents, hnostop, hmm]
  refine ⟨hw, ?_, ?_, ?_⟩
  · rw [hw]; rfl
  · intro s h1 h2; simp [coordStep, h1, h2]
  · intro m name other e h; simp [filesStep, h]

/-- Witness for C7: a base content with a stray opening marker makes the
serialized checkpoint strip differently, so the recomputed fingerprint
mismatches the gate's and the checkpoint aborts before writing. -/
theorem hash_mismatch_contained_witness :
    lookupGet (getCommentValueLookup "B".toList).values stopKey = none ∧
    getHash (getContentsFromLookup (updatedState
        (getCommentValueLookup "A\n/** @autorun-".toList) "x".toList
        "A\n/** @autorun-".toList)) ≠ "A\n/** @autorun-".toList ∧
    wcEffects (writeContents false (some "B".toList)
        (getCommentValueLookup "A\n/** @autorun-".toList) "x".toList
        "A\n/** @autorun-".toList) = [] :=
  ⟨by decide, by decide,
    (hash_mismatch_contained "B".toList
      (getCommentValueLookup "A\n/** @autorun-".toList) "x".toList
      "A\n/** @autorun-".toList (by decide) (by decide)).2.1⟩

/-! ### C8 — captured output

The code registers the stderr listener for an event named `"err"`; Node
readable streams emit chunks as `"data"` events and never emit `"err"`, so
stderr text is silently dropped — contradicting both the claim and the
specification's intent (the adjacent stdout listener uses `"data"`).  The
exit-code and spawn-error trailers do work as claimed.
-/

/-- Claim C8 (code bug): a child emitting `hi` on stdout and `oops` on stderr
then exiting 0 leaves `output = "\nhi"` — the stderr text is absent because
no handler listens for the stderr `"data"` event.  The exit-code trailer and
spawn-error trailer conjuncts behave as claimed. -/
theorem stderr_not_captured :
    runChildEvents [(StreamId.outStream, "data".toList, Payload.dataChunk "hi".toList),
        (StreamId.errStream, "data".toList, Payload.dataChunk "oops".toList),
        (StreamId.procStream, "exit".toList, Payload.exitCode (some 0))] = "\nhi".toList ∧
    hasSub (runChildEvents [(StreamId.outStream, "data".toList, Payload.dataChunk "hi".toList),
        (StreamId.errStream, "data".toList, Payload.dataChunk "oops".toList),
        (StreamId.procStream, "exit".toList, Payload.exitCode (some 0))])
      "oops".toList = false ∧
    runChildEvents [(StreamId.outStream, "data".toList, Payload.dataChunk "hi".toList),
        (StreamId.procStream, "exit".toList, Payload.exitCode (some 2))] =
      "\nhi".toList ++ exitTrailer (some 2) ∧
    runChildEvents [(StreamId.procStream, "error".toList, Payload.errObj "E".toList)] =
      "\n".toList ++ errorTrailer "E".toList := by
  refine ⟨by decide, by decide, by decide, by decide⟩

end Makeran
